import Mathlib

/-!
# mgbackup: chunk splitting, retry policy and fan-in decisions

A shallow embedding of the Go sources `archive.go` and `mgbackup.go`.

* A Go `error` is an `Option MegaError`, `none` being `nil`.
* An effectful callback (`fn` of `retry`) is the sequence of its outcomes:
  `fn k` is what the `(k+1)`-th invocation returns.
* A channel is the list of the values it delivers, in arrival order; receiving
  from an exhausted channel blocks forever, which is the result `none`.
* The local file system is the content found at each path; the file operations
  that fail are given by `Faults`.
-/

namespace MgBackup

/-! ## Errors and the retry policy (`mgbackup.go`) -/

/-- Error values of the remote store client: the try-again value `mega.EAGAIN`
and every other error. -/
inductive MegaError where
  | EAGAIN
  | other (code : Nat)
deriving DecidableEq, Repr

/-- A Go `error`; `none` is `nil`. -/
abbrev GoError := Option MegaError

/-- The constant `maxTries` of `retry`. -/
def maxTries : Nat := 10

/-- What one run of `retry` did: how many times `fn` was invoked, the sleeps
(in milliseconds) taken between invocations, and the returned error. -/
structure RetryRun where
  calls : Nat
  sleeps : List Nat
  err : GoError
deriving DecidableEq, Repr

/-- The loop `for i := 1; i <= maxTries; i++` of `retry`. `fuel` is the number of
iterations left, `maxTries + 1 - i`; `err` is the variable `err`. -/
def retryLoop (fn : Nat → GoError) : Nat → Nat → Nat → GoError → List Nat → RetryRun
  | 0, i, _, err, sleeps => ⟨i - 1, sleeps, err⟩
  | fuel + 1, i, sleep, _, sleeps =>
    match fn (i - 1) with
    | none => ⟨i, sleeps, none⟩
    | some e =>
      if e ≠ MegaError.EAGAIN then ⟨i, sleeps, some e⟩
      else retryLoop fn fuel (i + 1) (sleep * 2) (some e) (sleeps ++ [sleep])

/-- The function `retry`: the sleep starts at 100 ms. -/
def retry (fn : Nat → GoError) : RetryRun :=
  retryLoop fn maxTries 1 100 none []

/-! ## Accounts and sessions (`conf_yaml.go`, `mgbackup.go`) -/

/-- The struct `conf`. -/
structure conf where
  BackupFolder : String
  Account1Login : String
  Account1Password : String
  Account2Login : String
  Account2Password : String
  Account3Login : String
  Account3Password : String
  Account4Login : String
  Account4Password : String
deriving DecidableEq, Repr

/-- The struct `credential`. -/
structure credential where
  user : String
  password : String
deriving DecidableEq, Repr

/-- Go's `len` of a string: its length in bytes. -/
def len (s : String) : Nat := s.utf8ByteSize

/-- The function `initAccountsInfo`. -/
def initAccountsInfo (configuration : conf) : Except String (List credential) :=
  let credentials : List credential := []
  let credentials :=
    if len configuration.Account1Login > 0 then
      credentials ++ [⟨configuration.Account1Login, configuration.Account1Password⟩]
    else credentials
  let credentials :=
    if len configuration.Account2Login > 0 then
      credentials ++ [⟨configuration.Account2Login, configuration.Account2Password⟩]
    else credentials
  let credentials :=
    if len configuration.Account3Login > 0 then
      credentials ++ [⟨configuration.Account3Login, configuration.Account3Password⟩]
    else credentials
  let credentials :=
    if len configuration.Account4Login > 0 then
      credentials ++ [⟨configuration.Account4Login, configuration.Account4Password⟩]
    else credentials
  if credentials.length = 0 then
    Except.error " - There aren't Mega accounts configured"
  else Except.ok credentials

/-- A node of a remote account: its name, and the outcomes of the successive
attempts to download it. -/
structure RemoteNode where
  name : String
  download : Nat → GoError

/-- A logged-in `*mega.Mega`: the account it belongs to and the nodes of its
application folder (what `listAppRemoteFolder` returns). -/
structure MegaSession where
  user : String
  nodes : List RemoteNode

/-- The function `newMegaSession`: the value sent on the channel. `login` is the
sequence of outcomes of `megaSession.Login(user, password)`, `megaSession` the
session object that `mega.New()` made. -/
def newMegaSession (megaSession : MegaSession) (login : Nat → GoError) :
    Option MegaSession :=
  if (retry login).err = none then some megaSession else none

/-- The receiving loop of `generateAllSessions`: `todo` is `len(accounts) - i`,
`responses` what the channel still delivers. -/
def generateAllSessionsLoop :
    Nat → List (Option MegaSession) → List MegaSession →
      Option (Except String (List MegaSession))
  | 0, _, allSessions => some (Except.ok allSessions)
  | _ + 1, [], _ => none
  | todo + 1, session :: responses, allSessions =>
    match session with
    | none => some (Except.error " - There is an error with the connection")
    | some s => generateAllSessionsLoop todo responses (allSessions ++ [s])

/-- The function `generateAllSessions`; `responses` is what the goroutines
`newMegaSession` send, in arrival order. -/
def generateAllSessions (accounts : List credential)
    (responses : List (Option MegaSession)) :
    Option (Except String (List MegaSession)) :=
  generateAllSessionsLoop accounts.length responses []

/-! ## Upload fan-in (`mgbackup.go`) -/

/-- The function `areUploadResponsesSuccessful`. -/
def areUploadResponsesSuccessful : List GoError → Bool
  | [] => true
  | response :: responses =>
    if response ≠ none then false else areUploadResponsesSuccessful responses

/-- The observable steps of `makeBackup` once `split` has returned. -/
inductive BackupEvent where
  | cleanPreviousBackupInAppRemoteFolder
  | uploadFile (i : Nat) (filePath : String)
  | printUploadSuccessful
  | printUploadFail
  | removeLocalTemporaryFiles (zipFile : String) (zipFileChunks : List String)
deriving DecidableEq, Repr

/-- The function `makeBackup` from the purge of the previous backup on:
`outputFile` and `fileChunks` are what `getOutPutFile` and `split` returned,
`uploadResponses` the `len(fileChunks)` values received from the channel. -/
def makeBackup (outputFile : String) (fileChunks : List String)
    (uploadResponses : List GoError) : List BackupEvent :=
  [BackupEvent.cleanPreviousBackupInAppRemoteFolder]
    ++ fileChunks.enum.map (fun p => BackupEvent.uploadFile p.1 p.2)
    ++ (if areUploadResponsesSuccessful uploadResponses = true then
          [BackupEvent.printUploadSuccessful]
        else
          [BackupEvent.cleanPreviousBackupInAppRemoteFolder, BackupEvent.printUploadFail])
    ++ [BackupEvent.removeLocalTemporaryFiles outputFile fileChunks]

/-! ## Local files (`archive.go`)

Go strings are embedded as `String`; their order is the byte-wise one of Go,
`stringLt` below. -/

/-- The regular files of the local file system: the content found at a path. -/
abbrev FileSystem := String → Option (List UInt8)

/-- Writing a whole file (`os.Create` followed by `ioutil.WriteFile`). -/
def FileSystem.writeFile (fs : FileSystem) (name : String) (data : List UInt8) :
    FileSystem :=
  fun p => if p = name then some data else fs p

/-- Appending to a file opened with `O_CREATE|O_APPEND`. -/
def FileSystem.appendFile (fs : FileSystem) (name : String) (data : List UInt8) :
    FileSystem :=
  fs.writeFile name ((fs name).getD [] ++ data)

/-- Go's `filepath.Base` on a Unix path: the last element, trailing slashes
removed; `.` for the empty path and `/` for a path of slashes only. -/
def filepathBase (path : String) : String :=
  if path = "" then "."
  else
    let stripped := (path.data.reverse.dropWhile (fun c => c = '/')).reverse
    let last := (stripped.reverse.takeWhile (fun c => c ≠ '/')).reverse
    if last = [] then "/" else String.mk last

/-- Go's `filepath.Join(dir, name)` for a cleaned directory path `dir` (what
`filepath.Abs` returns) and a file name `name`. -/
def filepathJoin (dir name : String) : String :=
  if dir = "" then name
  else if dir = "/" then dir ++ name
  else dir ++ "/" ++ name

/-- Go's `fmt.Sprintf("%03d", index)` for `index ≥ 0`: the decimal digits, padded
with zeros on the left to three characters. -/
def sprintf03d (index : Nat) : String :=
  String.mk (List.replicate (3 - (Nat.toDigits 10 index).length) '0' ++ Nat.toDigits 10 index)

/-- The name that `split` gives to chunk `i`. -/
def chunkName (tempDir fileName : String) (i : Nat) : String :=
  tempDir ++ fileName ++ "_" ++ sprintf03d i

/-- Conversion to `uint64`: reduction modulo `2^64`. -/
def toUint64 (z : Int) : Int := z % 2 ^ 64

/-- Conversion to `int64`: the representative in `[-2^63, 2^63)`. -/
def toInt64 (z : Int) : Int := (z + 2 ^ 63) % 2 ^ 64 - 2 ^ 63

/-- The rationals that a `float64` holds exactly: `m * 2^q` with `|m| ≤ 2^53`
and `-1074 ≤ q ≤ 970`. -/
def IsFloat64 (x : ℚ) : Prop :=
  ∃ m q : ℤ, |m| ≤ 2 ^ 53 ∧ -1074 ≤ q ∧ q ≤ 970 ∧ x = (m : ℚ) * (2 : ℚ) ^ q

/-- A rounding to `float64`: it returns a `float64`, and one nearest to its
argument, as IEEE 754 rounding to nearest does, whatever the rule for ties. -/
def RoundsToNearest (rnd : ℚ → ℚ) : Prop :=
  ∀ x : ℚ, IsFloat64 (rnd x) ∧ ∀ f : ℚ, IsFloat64 f → |rnd x - x| ≤ |f - x|

/-- The variable `fileChunk` of `split` as computed on `float64` with the
rounding `rnd`: `math.Ceil(float64(fileSize) / float64(amountChunks))`. -/
def fileChunkFloat (rnd : ℚ → ℚ) (fileSize amountChunks : Nat) : Int :=
  ⌈rnd (rnd (fileSize : ℚ) / rnd (amountChunks : ℚ))⌉

/-- The variable `fileChunk` of `split`,
`math.Ceil(float64(fileSize) / float64(amountChunks))`, for `amountChunks ≥ 1`:
the ceiling of the quotient, computed on integers. It is the value of the
`float64` computation `fileChunkFloat` when `fileSize` and `amountChunks` are
below `2^53`. -/
def fileChunk (fileSize amountChunks : Nat) : Int :=
  ((fileSize + amountChunks - 1) / amountChunks : Nat)

/-- The variable `partSize` of `split` at iteration `i`:
`int(math.Min(fileChunk, float64(fileSize-int64(uint64(i)*uint64(fileChunk)))))`,
the `float64` conversions taken exact. It is the value of the `float64`
computation `partSizeFloat` while the loop runs on a file below `2^53` bytes. -/
def partSize (fileSize fileChunk : Int) (i : Nat) : Int :=
  min fileChunk (toInt64 (fileSize - toInt64 (toUint64 ((i : Int) * toUint64 fileChunk))))

/-- The variable `partSize` of `split` at iteration `i` as computed on `float64`
with the rounding `rnd`; the conversion `int(...)` drops the fraction. -/
def partSizeFloat (rnd : ℚ → ℚ) (fileSize amountChunks i : Nat) : Int :=
  if 0 ≤ min ((fileChunkFloat rnd fileSize amountChunks : Int) : ℚ)
      (rnd ((toInt64 ((fileSize : Int) - toInt64 (toUint64
        ((i : Int) * toUint64 (fileChunkFloat rnd fileSize amountChunks)))) : Int) : ℚ)) then
    ⌊min ((fileChunkFloat rnd fileSize amountChunks : Int) : ℚ)
      (rnd ((toInt64 ((fileSize : Int) - toInt64 (toUint64
        ((i : Int) * toUint64 (fileChunkFloat rnd fileSize amountChunks)))) : Int) : ℚ))⌋
  else
    ⌈min ((fileChunkFloat rnd fileSize amountChunks : Int) : ℚ)
      (rnd ((toInt64 ((fileSize : Int) - toInt64 (toUint64
        ((i : Int) * toUint64 (fileChunkFloat rnd fileSize amountChunks)))) : Int) : ℚ))⌉

/-- The constant `maxRW` of Go's `internal/poll`, `1 << 30`: the most bytes that
one `Read` of an `*os.File` transfers. -/
def maxRW : Nat := 2 ^ 30

/-- The local file operations that fail, by path: `createFails` for `os.Create`,
`writeFailsAfter` for `ioutil.WriteFile`, `openOutputFails` for `os.OpenFile`
with `O_CREATE|O_APPEND|O_WRONLY`, and `copyFailsAfter` for `io.Copy` from the
file at that path; `some k` is a failure after `k` bytes were written. -/
structure Faults where
  createFails : String → Bool
  writeFailsAfter : String → Option Nat
  openOutputFails : String → Bool
  copyFailsAfter : String → Option Nat

/-- No local file operation fails. -/
def noFaults : Faults := ⟨fun _ => false, fun _ => none, fun _ => false, fun _ => none⟩

/-- How a call of `split` ends. -/
inductive SplitResult where
  /-- `return filesPath, nil`, with the file system as `split` left it. -/
  | ok (filesPath : List String) (fs : FileSystem)
  /-- `os.Open` failed: `return nil, err`. -/
  | openError
  /-- `os.Create` of a chunk file failed: `return nil, err`. -/
  | createError
  /-- `make([]byte, partSize)` with `partSize < 0`: run-time panic
  `makeslice: len out of range`. -/
  | panicMakeslice

/-- The loop `for i := uint64(0); i < totalPartsNum; i++` of `split`. `todo` is
`totalPartsNum - i`; `file` is the handle opened on `fileToBeChunked` and
`offset` its read position. The one call `file.Read(partBuffer)`, whose count
the code drops, fills the buffer from the read position with the bytes the file
holds there, at most `maxRW` of them, and leaves the rest of the buffer zero.
`ioutil.WriteFile`, whose error the code drops, then writes the whole buffer,
or its first `k` bytes when it fails after `k` bytes. -/
def splitLoop (io : Faults) (tempDir fileName fileToBeChunked : String)
    (fileSize fileChunk : Int) :
    Nat → Nat → Nat → List String → FileSystem → SplitResult
  | 0, _, _, filesPath, fs => SplitResult.ok filesPath fs
  | todo + 1, i, offset, filesPath, fs =>
    if partSize fileSize fileChunk i < 0 then SplitResult.panicMakeslice
    else
      let read := (((fs fileToBeChunked).getD []).drop offset).take
        (min (partSize fileSize fileChunk i).toNat maxRW)
      let partBuffer :=
        read ++ List.replicate ((partSize fileSize fileChunk i).toNat - read.length) 0
      if io.createFails (chunkName tempDir fileName i) = true then SplitResult.createError
      else
        splitLoop io tempDir fileName fileToBeChunked fileSize fileChunk todo (i + 1)
          (offset + read.length) (filesPath ++ [chunkName tempDir fileName i])
          (fs.writeFile (chunkName tempDir fileName i)
            (match io.writeFailsAfter (chunkName tempDir fileName i) with
              | some k => partBuffer.take k
              | none => partBuffer))

/-- The function `split`; `osTempDir` is `os.TempDir()`. -/
def split (io : Faults) (osTempDir : String) (fs : FileSystem) (fileToBeChunked : String)
    (amountChunks : Nat) : SplitResult :=
  match fs fileToBeChunked with
  | none => SplitResult.openError
  | some content =>
    splitLoop io (osTempDir ++ "/") (filepathBase fileToBeChunked) fileToBeChunked
      content.length (fileChunk content.length amountChunks) amountChunks 0 0 [] fs

/-- How a call of `concatFiles` ends. -/
inductive ConcatResult where
  /-- The call returned, `err` telling whether with an error, and left the file
  system `fs`. -/
  | returned (fs : FileSystem) (err : Bool)
  /-- The call does not return: `io.Copy` reads the output file while appending
  to it. -/
  | neverReturns

/-- The loop of `concatFiles` over the chunks. An input that cannot be opened, or
whose copy fails, ends the call with an error. An input that is the output file
itself, not empty, is copied without end: every byte read is appended to the
file being read. -/
def concatFilesLoop (io : Faults) (outputFilePath : String) :
    List String → FileSystem → ConcatResult
  | [], fs => ConcatResult.returned fs false
  | chunk :: rest, fs =>
    match fs chunk with
    | none => ConcatResult.returned fs true
    | some data =>
      if chunk = outputFilePath ∧ data ≠ [] then ConcatResult.neverReturns
      else
        match io.copyFailsAfter chunk with
        | some k => ConcatResult.returned (fs.appendFile outputFilePath (data.take k)) true
        | none => concatFilesLoop io outputFilePath rest (fs.appendFile outputFilePath data)

/-- The function `concatFiles`: the output is created when missing and appended
to otherwise. -/
def concatFiles (io : Faults) (fs : FileSystem) (inputFilesPath : List String)
    (outputFilePath : String) : ConcatResult :=
  if io.openOutputFails outputFilePath = true then ConcatResult.returned fs true
  else concatFilesLoop io outputFilePath inputFilesPath (fs.appendFile outputFilePath [])

/-- An entry of a directory listing (`os.FileInfo`). -/
structure FileInfo where
  name : String
  isDir : Bool
deriving DecidableEq, Repr

/-- The function `getFilesInDirectoryOrderByName`; `readDir` is what
`ioutil.ReadDir(directoryPath)` returns, `none` being an error. -/
def getFilesInDirectoryOrderByName (readDir : Option (List FileInfo))
    (directoryPath : String) : Option (List String) :=
  match readDir with
  | none => none
  | some fileInfo =>
    some ((fileInfo.filter (fun file => !file.isDir)).map
      (fun file => filepathJoin directoryPath file.name))

/-- The function `removeLocalTemporaryFiles`: the paths it removes. -/
def removeLocalTemporaryFiles (zipFile : String) (zipFileChunks : List String) :
    List String :=
  zipFile :: zipFileChunks

/-! ## Download fan-in (`mgbackup.go`) -/

/-- Whether `pat` starts the character list `text`. -/
def startsWith : List Char → List Char → Bool
  | _, [] => true
  | [], _ :: _ => false
  | c :: text, p :: pat => c = p && startsWith text pat

/-- Go's `strings.Contains` on character lists. -/
def containsChars : List Char → List Char → Bool
  | [], pat => pat.isEmpty
  | c :: text, pat => startsWith (c :: text) pat || containsChars text pat

/-- Go's `strings.Contains(s, substr)`. -/
def stringsContains (s substr : String) : Bool := containsChars s.data substr.data

/-- The function `downloadRemoteFile`: the value it sends on the channel. -/
def downloadRemoteFile (src : RemoteNode) : GoError := (retry src.download).err

/-- The nodes for which `downloadRemoteBackupFiles` starts a download, in
dispatch order; `hash` is `getMD5Hash(backupFolder)`. -/
def dispatchedDownloads (sessions : List MegaSession) (hash : String) : List RemoteNode :=
  sessions.flatMap (fun session => session.nodes.filter (fun node => stringsContains node.name hash))

/-- Receiving `n` values from a channel that delivers `arrival`; `none` when the
channel runs dry first, the receive then blocking forever. -/
def receiveN : Nat → List GoError → Option (List GoError)
  | 0, _ => some []
  | _ + 1, [] => none
  | n + 1, r :: arrival => (receiveN n arrival).map (fun rs => r :: rs)

/-- The last loop of `downloadRemoteBackupFiles`: the first non-`nil` response. -/
def firstError : List GoError → GoError
  | [] => none
  | file :: downloadFiles => if file ≠ none then file else firstError downloadFiles

/-- The function `downloadRemoteBackupFiles`. `arrival` is what the dispatched
`downloadRemoteFile` goroutines send, in completion order. The result is `none`
when the function never returns. -/
def downloadRemoteBackupFiles (sessions : List MegaSession) (arrival : List GoError) :
    Option GoError :=
  (receiveN sessions.length arrival).map firstError

/-- The constant `appExt`. -/
def appExt : String := "mgbackup"

/-- What a run of `downloadRemoteBackup` that came to its end handed over: the
inputs and the output of `concatFiles`, and the files removed at the end. -/
structure RestoreRun where
  concatInputs : List String
  zipFile : String
  removed : List String
deriving DecidableEq, Repr

/-- How a call of `downloadRemoteBackup` ends. -/
inductive RestoreResult where
  /-- The call came to its end. -/
  | done (run : RestoreRun)
  /-- `panicIfError` met an error. -/
  | panic
  /-- The call of `concatFiles` does not return. -/
  | neverReturns
deriving DecidableEq, Repr

/-- The function `downloadRemoteBackup`. `downloadErr` is what
`downloadRemoteBackupFiles` returned, `fs` and `readDir` the files and the
listing of the destination directory once the downloads are done; `hash` is
`getMD5Hash(backupFolder)`. -/
def downloadRemoteBackup (io : Faults) (fs : FileSystem) (readDir : Option (List FileInfo))
    (downloadErr : GoError) (hash downloadDestinationPath : String) : RestoreResult :=
  match downloadErr with
  | some _ => RestoreResult.panic
  | none =>
    match getFilesInDirectoryOrderByName readDir downloadDestinationPath with
    | none => RestoreResult.panic
    | some downloadedFiles =>
      match concatFiles io fs downloadedFiles
          (filepathJoin downloadDestinationPath (hash ++ "." ++ appExt)) with
      | ConcatResult.neverReturns => RestoreResult.neverReturns
      | ConcatResult.returned _ true => RestoreResult.panic
      | ConcatResult.returned _ false =>
        RestoreResult.done
          ⟨downloadedFiles, filepathJoin downloadDestinationPath (hash ++ "." ++ appExt),
            removeLocalTemporaryFiles
              (filepathJoin downloadDestinationPath (hash ++ "." ++ appExt)) downloadedFiles⟩

/-! ## Auxiliary definitions for the statements -/

/-- The number that a string of decimal digits writes. -/
def digitsValue (ds : List Char) : Nat :=
  List.foldl (fun acc ch => acc * 10 + (ch.toNat - 48)) 0 ds

/-- A file system holding one file. -/
def singleFile (path : String) (content : List UInt8) : FileSystem :=
  fun p => if p = path then some content else none

/-- The bytes of a Go string (its UTF-8 encoding). -/
def bytesOf (s : String) : List UInt8 := s.data.flatMap String.utf8EncodeChar

/-- Lexicographic comparison of byte strings. -/
def lexLt : List UInt8 → List UInt8 → Bool
  | [], [] => false
  | [], _ :: _ => true
  | _ :: _, [] => false
  | a :: as, b :: bs =>
    if a.toNat < b.toNat then true
    else if b.toNat < a.toNat then false
    else lexLt as bs

/-- Go's `<` on strings: byte-wise lexicographic comparison. -/
def stringLt (a b : String) : Bool := lexLt (bytesOf a) (bytesOf b)

/-- The local files that the dispatched downloads write: `downloadRemoteFile`
downloads a node to `filepath.Join(restorePath, src.GetName())`. -/
def downloadedFiles (sessions : List MegaSession) (hash restorePath : String) : List String :=
  (dispatchedDownloads sessions hash).map (fun src => filepathJoin restorePath src.name)

/-- A file of 3 GiB, every byte of which is 1. -/
def threeGiB : List UInt8 := List.replicate (3 * 2 ^ 30) 1

/-- The first GiB of `threeGiB`, followed by 2 GiB of zeros. -/
def threeGiBChunk : List UInt8 := List.replicate (2 ^ 30) 1 ++ List.replicate (2 * 2 ^ 30) 0

/-! ## Theorems: the retry policy -/

/-- Invariant of the loop of `retry`, entered at iteration `i` with `fuel`
iterations left: every earlier call failed with `EAGAIN` and `err` holds the
error of the latest call. -/
theorem retryLoop_inv (fn : Nat → GoError) :
    ∀ (fuel i sleep : Nat) (err : GoError) (sleeps : List Nat),
      1 ≤ i → (fuel = 0 → 2 ≤ i) →
      (∀ k, k + 1 < i → fn k = some MegaError.EAGAIN) →
      (2 ≤ i → err = fn (i - 2)) →
      1 ≤ (retryLoop fn fuel i sleep err sleeps).calls ∧
      (retryLoop fn fuel i sleep err sleeps).calls ≤ i - 1 + fuel ∧
      (∀ k, k + 1 < (retryLoop fn fuel i sleep err sleeps).calls →
        fn k = some MegaError.EAGAIN) ∧
      (retryLoop fn fuel i sleep err sleeps).err
        = fn ((retryLoop fn fuel i sleep err sleeps).calls - 1) ∧
      ((retryLoop fn fuel i sleep err sleeps).calls < i - 1 + fuel →
        fn ((retryLoop fn fuel i sleep err sleeps).calls - 1) ≠ some MegaError.EAGAIN) := by
  intro fuel
  induction fuel with
  | zero =>
    intro i sleep err sleeps hi h0 hprev herr
    have h2 : 2 ≤ i := h0 rfl
    simp only [retryLoop]
    refine ⟨by omega, by omega, ?_, ?_, by omega⟩
    · intro k hk
      exact hprev k (by omega)
    · rw [herr h2]
      congr 1
  | succ fuel ih =>
    intro i sleep err sleeps hi _ hprev herr
    simp only [retryLoop]
    cases hfn : fn (i - 1) with
    | none =>
      simp only
      refine ⟨hi, by omega, ?_, hfn.symm, ?_⟩
      · intro k hk
        exact hprev k hk
      · intro _
        rw [hfn]
        simp
    | some e =>
      simp only
      by_cases he : e = MegaError.EAGAIN
      · subst he
        simp only [ne_eq, not_true_eq_false, if_false]
        have key := ih (i + 1) (sleep * 2) (some MegaError.EAGAIN) (sleeps ++ [sleep])
          (by omega) (by omega)
          (by
            intro k hk
            by_cases hki : k + 1 < i
            · exact hprev k hki
            · have : k = i - 1 := by omega
              rw [this]
              exact hfn)
          (by
            intro _
            have : i + 1 - 2 = i - 1 := by omega
            rw [this]
            exact hfn.symm)
        obtain ⟨k1, k2, k3, k4, k5⟩ := key
        refine ⟨k1, by omega, k3, k4, ?_⟩
        intro hlt
        exact k5 (by omega)
      · simp only [ne_eq, he, not_false_eq_true, if_true]
        refine ⟨hi, by omega, ?_, hfn.symm, ?_⟩
        · intro k hk
          exact hprev k hk
        · intro _
          rw [hfn]
          intro hc
          exact he (Option.some.inj hc)

/-- C3: `retry` invokes `fn` at least once and at most 10 times; every call but
the last failed with `mega.EAGAIN` (so a call that succeeds or fails with any
other error is the last one); a last call that failed with `mega.EAGAIN` is the
tenth; and the returned error is the outcome of the last call, so it is `nil`
exactly when the last call succeeded. -/
theorem retry_policy (fn : Nat → GoError) :
    1 ≤ (retry fn).calls ∧ (retry fn).calls ≤ 10 ∧
    (∀ k, k + 1 < (retry fn).calls → fn k = some MegaError.EAGAIN) ∧
    (∀ k, k < (retry fn).calls → fn k ≠ some MegaError.EAGAIN →
      (retry fn).calls = k + 1) ∧
    (fn ((retry fn).calls - 1) = some MegaError.EAGAIN → (retry fn).calls = 10) ∧
    (retry fn).err = fn ((retry fn).calls - 1) ∧
    ((retry fn).err = none ↔ fn ((retry fn).calls - 1) = none) := by
  have key := retryLoop_inv fn maxTries 1 100 none [] (by decide) (by decide)
    (by intro k hk; omega) (by intro h; omega)
  have hm : 1 - 1 + maxTries = 10 := by decide
  rw [hm] at key
  unfold retry
  obtain ⟨k1, k2, k3, k4, k5⟩ := key
  refine ⟨k1, k2, k3, ?_, ?_, k4, ?_⟩
  · intro k hk hne
    by_contra hcon
    exact hne (k3 k (by omega))
  · intro hlast
    by_contra hcon
    exact k5 (by omega) hlast
  · rw [k4]

/-- Witness for C3: two try-again failures, then a permanent error. -/
theorem retry_policy_witness :
    (retry (fun k => if k < 2 then some MegaError.EAGAIN else some (MegaError.other 7))).calls = 3 ∧
    (retry (fun k => if k < 2 then some MegaError.EAGAIN
      else some (MegaError.other 7))).err = some (MegaError.other 7) ∧
    (retry (fun _ => some MegaError.EAGAIN)).calls = 10 ∧
    (retry (fun _ => none)).calls = 1 ∧
    1 ≤ (retry (fun _ => some MegaError.EAGAIN)).calls := by
  refine ⟨by decide, by decide, by decide, by decide, ?_⟩
  exact (retry_policy (fun _ => some MegaError.EAGAIN)).1

/-! ## Theorems: configured accounts -/

/-- A string has byte length zero exactly when it is the empty string. -/
theorem len_eq_zero_iff (s : String) : len s = 0 ↔ s = "" := by
  obtain ⟨cs⟩ := s
  cases cs with
  | nil => simp [len, String.utf8ByteSize, String.utf8ByteSize.go]
  | cons c cs =>
    have hc := Char.utf8Size_pos c
    have hne : (String.mk (c :: cs)) ≠ "" := by
      intro h
      have := congrArg String.data h
      simp at this
    simp only [len, String.utf8ByteSize, String.utf8ByteSize.go, hne, iff_false]
    omega

/-- The test `len(login) > 0` of `initAccountsInfo`. -/
theorem len_pos_iff (s : String) : len s > 0 ↔ s ≠ "" := by
  rw [Ne, ← len_eq_zero_iff]
  omega

/-- C9: `initAccountsInfo` returns an error exactly when all four logins are
empty; otherwise it returns the accounts with a non-empty login, in account
order 1 to 4, each with the password of the same account, and they are between
1 and 4. -/
theorem initAccountsInfo_spec (c : conf) :
    ((∃ msg, initAccountsInfo c = Except.error msg) ↔
      (c.Account1Login = "" ∧ c.Account2Login = "" ∧
        c.Account3Login = "" ∧ c.Account4Login = "")) ∧
    (¬ (c.Account1Login = "" ∧ c.Account2Login = "" ∧
        c.Account3Login = "" ∧ c.Account4Login = "") →
      initAccountsInfo c = Except.ok
        (List.filter (fun a => decide (a.user ≠ ""))
          [⟨c.Account1Login, c.Account1Password⟩, ⟨c.Account2Login, c.Account2Password⟩,
           ⟨c.Account3Login, c.Account3Password⟩, ⟨c.Account4Login, c.Account4Password⟩]) ∧
      1 ≤ (List.filter (fun a : credential => decide (a.user ≠ ""))
          [⟨c.Account1Login, c.Account1Password⟩, ⟨c.Account2Login, c.Account2Password⟩,
           ⟨c.Account3Login, c.Account3Password⟩,
           ⟨c.Account4Login, c.Account4Password⟩]).length ∧
      (List.filter (fun a : credential => decide (a.user ≠ ""))
          [⟨c.Account1Login, c.Account1Password⟩, ⟨c.Account2Login, c.Account2Password⟩,
           ⟨c.Account3Login, c.Account3Password⟩,
           ⟨c.Account4Login, c.Account4Password⟩]).length ≤ 4) := by
  simp only [initAccountsInfo, len_pos_iff]
  by_cases h1 : c.Account1Login = "" <;> by_cases h2 : c.Account2Login = "" <;>
    by_cases h3 : c.Account3Login = "" <;> by_cases h4 : c.Account4Login = "" <;>
    simp [h1, h2, h3, h4, List.filter]

/-- Witness for C9: accounts 2 and 4 configured. -/
theorem initAccountsInfo_spec_witness :
    initAccountsInfo ⟨"/data", "", "p1", "bob", "p2", "", "p3", "dan", "p4"⟩
      = Except.ok [⟨"bob", "p2"⟩, ⟨"dan", "p4"⟩] := by
  have h := (initAccountsInfo_spec ⟨"/data", "", "p1", "bob", "p2", "", "p3", "dan", "p4"⟩).2
    (by decide)
  rw [h.1]
  rfl

/-! ## Theorems: the session pool -/

/-- The session sent by `newMegaSession` is `nil` exactly when the login chain
ended with an error. -/
theorem newMegaSession_eq_none_iff (megaSession : MegaSession) (login : Nat → GoError) :
    newMegaSession megaSession login = none ↔ (retry login).err ≠ none := by
  unfold newMegaSession
  by_cases h : (retry login).err = none <;> simp [h]

/-- The receiving loop of `generateAllSessions` on as many responses as it
awaits: it fails at the first `nil`, else it collects every session. -/
theorem generateAllSessionsLoop_length (responses : List (Option MegaSession)) :
    ∀ allSessions : List MegaSession,
      generateAllSessionsLoop responses.length responses allSessions =
        if responses.all Option.isSome = true then
          some (Except.ok (allSessions ++ responses.reduceOption))
        else some (Except.error " - There is an error with the connection") := by
  induction responses with
  | nil =>
    intro allSessions
    simp [generateAllSessionsLoop]
  | cons r rs ih =>
    intro allSessions
    cases r with
    | none => simp [generateAllSessionsLoop]
    | some s =>
      simp only [List.length_cons, generateAllSessionsLoop, ih, List.all_cons,
        Option.isSome_some, Bool.true_and, List.reduceOption_cons_of_some]
      by_cases h : rs.all Option.isSome = true <;> simp [h]

/-- A list of optional sessions has only non-`nil` entries exactly when `nil` is
not a member. -/
theorem all_isSome_iff (responses : List (Option MegaSession)) :
    responses.all Option.isSome = true ↔ none ∉ responses := by
  induction responses with
  | nil => simp
  | cons r rs ih =>
    cases r with
    | none => simp
    | some s => simp [ih]

/-- C6: when the channel delivers, in any order, the authentication results of
the accounts (one per account), `generateAllSessions` returns an error and no
sessions exactly when some result is `nil`, that is, when some account's
authentication failed; otherwise it returns the reported sessions,
`len(accounts)` of them. -/
theorem generateAllSessions_fail_fast (accounts : List credential)
    (results responses : List (Option MegaSession))
    (hresults : results.length = accounts.length)
    (harrival : responses.Perm results) :
    ((∃ msg, generateAllSessions accounts responses = some (Except.error msg)) ↔
      none ∈ results) ∧
    (none ∉ results →
      ∃ sessions, generateAllSessions accounts responses = some (Except.ok sessions) ∧
        sessions.length = accounts.length ∧ sessions.map some = responses) ∧
    (∀ (megaSession : MegaSession) (login : Nat → GoError),
      newMegaSession megaSession login = none ↔ (retry login).err ≠ none) := by
  have hlen : accounts.length = responses.length := by
    rw [← hresults, harrival.length_eq]
  have hmem : none ∈ responses ↔ none ∈ results := harrival.mem_iff
  unfold generateAllSessions
  rw [hlen, generateAllSessionsLoop_length]
  refine ⟨?_, ?_, newMegaSession_eq_none_iff⟩
  · by_cases h : none ∈ responses
    · have hb : ¬ responses.all Option.isSome = true := fun hc =>
        (all_isSome_iff responses).mp hc h
      simp [hb, hmem.mp h]
    · have h2 : none ∉ results := fun hc => h (hmem.mpr hc)
      have hb : responses.all Option.isSome = true := (all_isSome_iff responses).mpr h
      simp [hb, h2]
  · intro hnone
    have h : none ∉ responses := fun hc => hnone (hmem.mp hc)
    have hb : responses.all Option.isSome = true := (all_isSome_iff responses).mpr h
    refine ⟨responses.reduceOption, by simp [hb], ?_, ?_⟩
    · rw [List.reduceOption_length_eq_iff.mpr]
      intro x hx
      cases x with
      | none => exact absurd hx h
      | some _ => rfl
    · have : ∀ l : List (Option MegaSession), none ∉ l → l.reduceOption.map some = l := by
        intro l
        induction l with
        | nil => intro _; rfl
        | cons x xs ih =>
          intro hx
          cases x with
          | none => simp at hx
          | some y =>
            simp only [List.mem_cons, reduceCtorEq, false_or] at hx
            simp [List.reduceOption_cons_of_some, ih hx]
      exact this responses h

/-- Witness for C6: two accounts, the second session arrives first. -/
theorem generateAllSessions_fail_fast_witness :
    ∃ sessions,
      generateAllSessions [⟨"ann", "a"⟩, ⟨"bob", "b"⟩]
        [some ⟨"bob", []⟩, some ⟨"ann", []⟩] = some (Except.ok sessions) ∧
      sessions.length = 2 :=
  Exists.elim
    ((generateAllSessions_fail_fast [⟨"ann", "a"⟩, ⟨"bob", "b"⟩]
      [some ⟨"ann", []⟩, some ⟨"bob", []⟩] [some ⟨"bob", []⟩, some ⟨"ann", []⟩]
      rfl (List.Perm.swap _ _ _)).2.1 (by simp))
    (fun sessions h => ⟨sessions, h.1, h.2.1⟩)

/-! ## Theorems: commit or rollback of an upload round -/

/-- The function `areUploadResponsesSuccessful` answers `true` exactly on a list
of `nil` responses. -/
theorem areUploadResponsesSuccessful_iff (responses : List GoError) :
    areUploadResponsesSuccessful responses = true ↔ ∀ r ∈ responses, r = none := by
  induction responses with
  | nil => simp [areUploadResponsesSuccessful]
  | cons r rs ih =>
    cases r with
    | none => simp [areUploadResponsesSuccessful, ih]
    | some e => simp [areUploadResponsesSuccessful]

/-- The dispatch of the uploads holds no purge. -/
theorem count_purge_uploads (fileChunks : List String) :
    List.count BackupEvent.cleanPreviousBackupInAppRemoteFolder
      (fileChunks.enum.map (fun p => BackupEvent.uploadFile p.1 p.2)) = 0 := by
  rw [List.count_eq_zero]
  intro h
  rw [List.mem_map] at h
  obtain ⟨p, _, hp⟩ := h
  cases hp

/-- C4: `makeBackup` reports success and runs no purge besides the one before the
uploads exactly when every collected upload outcome is `nil`; when some outcome
is an error it runs the rollback purge after the uploads and reports failure.
The local staging files are removed in both cases. -/
theorem makeBackup_commit_or_rollback (outputFile : String) (fileChunks : List String)
    (uploadResponses : List GoError) :
    ((∀ r ∈ uploadResponses, r = none) →
      makeBackup outputFile fileChunks uploadResponses =
        [BackupEvent.cleanPreviousBackupInAppRemoteFolder]
          ++ fileChunks.enum.map (fun p => BackupEvent.uploadFile p.1 p.2)
          ++ [BackupEvent.printUploadSuccessful]
          ++ [BackupEvent.removeLocalTemporaryFiles outputFile fileChunks]) ∧
    ((∃ r ∈ uploadResponses, r ≠ none) →
      makeBackup outputFile fileChunks uploadResponses =
        [BackupEvent.cleanPreviousBackupInAppRemoteFolder]
          ++ fileChunks.enum.map (fun p => BackupEvent.uploadFile p.1 p.2)
          ++ [BackupEvent.cleanPreviousBackupInAppRemoteFolder, BackupEvent.printUploadFail]
          ++ [BackupEvent.removeLocalTemporaryFiles outputFile fileChunks]) ∧
    ((BackupEvent.printUploadSuccessful ∈ makeBackup outputFile fileChunks uploadResponses ∧
        List.count BackupEvent.cleanPreviousBackupInAppRemoteFolder
          (makeBackup outputFile fileChunks uploadResponses) = 1) ↔
      ∀ r ∈ uploadResponses, r = none) ∧
    ((BackupEvent.printUploadFail ∈ makeBackup outputFile fileChunks uploadResponses ∧
        List.count BackupEvent.cleanPreviousBackupInAppRemoteFolder
          (makeBackup outputFile fileChunks uploadResponses) = 2) ↔
      ∃ r ∈ uploadResponses, r ≠ none) := by
  have hup := count_purge_uploads fileChunks
  have hmemS : BackupEvent.printUploadSuccessful ∉
      fileChunks.enum.map (fun p => BackupEvent.uploadFile p.1 p.2) := by
    intro h
    rw [List.mem_map] at h
    obtain ⟨p, _, hp⟩ := h
    cases hp
  have hmemF : BackupEvent.printUploadFail ∉
      fileChunks.enum.map (fun p => BackupEvent.uploadFile p.1 p.2) := by
    intro h
    rw [List.mem_map] at h
    obtain ⟨p, _, hp⟩ := h
    cases hp
  by_cases hall : ∀ r ∈ uploadResponses, r = none
  · have hb := (areUploadResponsesSuccessful_iff uploadResponses).mpr hall
    have hex : ¬ ∃ r ∈ uploadResponses, r ≠ none := by
      rintro ⟨r, hr, hne⟩
      exact hne (hall r hr)
    refine ⟨?_, fun h => absurd h hex, ?_, ?_⟩
    · intro _
      simp only [makeBackup, hb, if_true]
    · simp only [makeBackup, hb, if_true]
      simp only [List.count_append, hup]
      simp
      exact hall
    · simp only [makeBackup, hb, if_true]
      simp [List.count_append, hup, hex, hmemF]
  · have hb : areUploadResponsesSuccessful uploadResponses ≠ true := fun h =>
      hall ((areUploadResponsesSuccessful_iff uploadResponses).mp h)
    have hex : ∃ r ∈ uploadResponses, r ≠ none := by
      by_contra hc
      apply hall
      intro r hr
      by_contra hne
      exact hc ⟨r, hr, hne⟩
    have hb2 : areUploadResponsesSuccessful uploadResponses = false := by
      simpa using hb
    refine ⟨fun h => absurd h hall, ?_, ?_, ?_⟩
    · intro _
      simp [makeBackup, hb2]
    · simp only [makeBackup, hb, if_false]
      simp [List.count_append, hup, hall, hmemS]
    · simp only [makeBackup, hb, if_false]
      simp [List.count_append, hup, hex]

/-- Witness for C4: the fourth of four uploads failed for good. -/
theorem makeBackup_commit_or_rollback_witness :
    makeBackup "z" ["z_000", "z_001", "z_002", "z_003"]
        [none, none, none, some (MegaError.other 1)] =
      [BackupEvent.cleanPreviousBackupInAppRemoteFolder,
       BackupEvent.uploadFile 0 "z_000", BackupEvent.uploadFile 1 "z_001",
       BackupEvent.uploadFile 2 "z_002", BackupEvent.uploadFile 3 "z_003",
       BackupEvent.cleanPreviousBackupInAppRemoteFolder, BackupEvent.printUploadFail,
       BackupEvent.removeLocalTemporaryFiles "z" ["z_000", "z_001", "z_002", "z_003"]] :=
  ((makeBackup_commit_or_rollback "z" ["z_000", "z_001", "z_002", "z_003"]
      [none, none, none, some (MegaError.other 1)]).2.1
    ⟨some (MegaError.other 1), by simp, by simp⟩).trans (by decide)

/-! ## Theorems: machine integers, digits and chunk names -/

/-- A natural number below `2^64` is its own `uint64` value. -/
theorem toUint64_natCast (c : Nat) (h : c < 2 ^ 64) : toUint64 (c : Int) = c := by
  unfold toUint64
  omega

/-- An integer within the `int64` range is its own `int64` value. -/
theorem toInt64_of_range (z : Int) (h1 : -2 ^ 63 ≤ z) (h2 : z < 2 ^ 63) : toInt64 z = z := by
  unfold toInt64
  omega

/-- While the loop of `split` runs on a file below `2^53` bytes, no conversion
wraps around: the part size is `min(fileChunk, fileSize - i*fileChunk)`. -/
theorem partSize_exact (S c i : Nat) (hS : S < 2 ^ 53) (hc : c ≤ S) (hi : i * c ≤ S + c) :
    partSize S c i = min (c : Int) ((S : Int) - ((i * c : Nat) : Int)) := by
  unfold partSize
  rw [toUint64_natCast c (by omega)]
  have hm : (i : Int) * (c : Int) = ((i * c : Nat) : Int) := by push_cast; rfl
  rw [hm]
  generalize i * c = m at hi ⊢
  rw [toUint64_natCast m (by omega), toInt64_of_range (m : Int) (by omega) (by omega),
    toInt64_of_range _ (by omega) (by omega)]

/-- Digit characters decode to their digit. -/
theorem digitChar_toNat (k : Nat) (h : k < 10) : (Nat.digitChar k).toNat - 48 = k := by
  interval_cases k <;> rfl

/-- The value of a digit string followed by more digits. -/
theorem digitsValue_append (xs ys : List Char) :
    digitsValue (xs ++ ys) = List.foldl (fun acc ch => acc * 10 + (ch.toNat - 48)) (digitsValue xs) ys := by
  simp [digitsValue, List.foldl_append]

/-- The digits are produced in front of the accumulator. -/
theorem toDigitsCore_append (fuel : Nat) : ∀ (n : Nat) (ds : List Char),
    Nat.toDigitsCore 10 fuel n ds = Nat.toDigitsCore 10 fuel n [] ++ ds := by
  induction fuel with
  | zero => intro n ds; simp [Nat.toDigitsCore]
  | succ fuel ih =>
    intro n ds
    simp only [Nat.toDigitsCore]
    by_cases h : n / 10 = 0
    · simp [h]
    · simp only [h, if_false]
      rw [ih (n / 10) (Nat.digitChar (n % 10) :: ds), ih (n / 10) [Nat.digitChar (n % 10)]]
      simp

/-- The decimal digits of `n` write `n`. -/
theorem digitsValue_toDigitsCore (fuel : Nat) : ∀ n, n < fuel →
    digitsValue (Nat.toDigitsCore 10 fuel n []) = n := by
  induction fuel with
  | zero => intro n h; omega
  | succ fuel ih =>
    intro n hn
    simp only [Nat.toDigitsCore]
    by_cases h : n / 10 = 0
    · simp only [h, if_true]
      have hlt : n % 10 < 10 := Nat.mod_lt _ (by decide)
      simp only [digitsValue, List.foldl, Nat.zero_mul, Nat.zero_add]
      rw [digitChar_toNat _ hlt]
      omega
    · simp only [h, if_false]
      rw [toDigitsCore_append, digitsValue_append, ih (n / 10) (by omega)]
      have hlt : n % 10 < 10 := Nat.mod_lt _ (by decide)
      simp only [List.foldl]
      rw [digitChar_toNat _ hlt]
      omega

/-- Leading zeros do not change the value. -/
theorem digitsValue_zeros (k : Nat) (l : List Char) :
    digitsValue (List.replicate k '0' ++ l) = digitsValue l := by
  induction k with
  | zero => simp
  | succ k ih =>
    rw [List.replicate_succ, List.cons_append]
    unfold digitsValue at ih ⊢
    simp only [List.foldl]
    exact ih

/-- The chunk index is read back from its three-or-more-digit form. -/
theorem digitsValue_sprintf03d (i : Nat) : digitsValue (sprintf03d i).data = i := by
  unfold sprintf03d
  simp only
  rw [digitsValue_zeros]
  exact digitsValue_toDigitsCore (i + 1) i (by omega)

/-- Distinct chunk indices are formatted differently. -/
theorem sprintf03d_injective {i j : Nat} (h : sprintf03d i = sprintf03d j) : i = j := by
  rw [← digitsValue_sprintf03d i, ← digitsValue_sprintf03d j, h]

/-- Distinct chunk indices get distinct chunk names. -/
theorem chunkName_injective (td fn : String) {i j : Nat}
    (h : chunkName td fn i = chunkName td fn j) : i = j := by
  unfold chunkName at h
  have h2 := congrArg String.data h
  simp only [String.data_append, List.append_assoc] at h2
  have h3 := List.append_cancel_left (List.append_cancel_left (List.append_cancel_left h2))
  exact sprintf03d_injective (String.ext h3)

/-- A digit is not a path separator. -/
theorem digitChar_ne_slash : ∀ k, k < 10 → Nat.digitChar k ≠ '/' := by
  decide

/-- The decimal digits hold no path separator. -/
theorem toDigitsCore_no_slash (fuel : Nat) : ∀ (n : Nat) (ds : List Char),
    (∀ c ∈ ds, c ≠ '/') → ∀ c ∈ Nat.toDigitsCore 10 fuel n ds, c ≠ '/' := by
  induction fuel with
  | zero => intro n ds h; simpa [Nat.toDigitsCore] using h
  | succ fuel ih =>
    intro n ds h
    have hd : ∀ c ∈ Nat.digitChar (n % 10) :: ds, c ≠ '/' := by
      intro c hc
      rcases List.mem_cons.mp hc with rfl | hc
      · exact digitChar_ne_slash _ (Nat.mod_lt _ (by decide))
      · exact h c hc
    simp only [Nat.toDigitsCore]
    by_cases hz : n / 10 = 0
    · simpa [hz] using hd
    · simp only [hz, if_false]
      exact ih _ _ hd

/-- The formatted chunk index holds no path separator and is not empty. -/
theorem sprintf03d_no_slash (i : Nat) :
    (∀ c ∈ (sprintf03d i).data, c ≠ '/') ∧ 3 ≤ (sprintf03d i).data.length := by
  unfold sprintf03d
  constructor
  · intro c hc
    rcases List.mem_append.mp hc with hc | hc
    · have := (List.mem_replicate.mp hc).2
      rw [this]
      decide
    · exact toDigitsCore_no_slash _ _ _ (by simp) c hc
  · simp only [List.length_append, List.length_replicate]
    omega

/-- The longest initial run satisfying `p` covers every initial segment that
satisfies `p`. -/
theorem length_le_takeWhile (p : Char → Bool) : ∀ (A rest : List Char),
    (∀ c ∈ A, p c = true) → A.length ≤ ((A ++ rest).takeWhile p).length := by
  intro A
  induction A with
  | nil => intro rest _; simp
  | cons a A ih =>
    intro rest h
    have ha : p a = true := h a (by simp)
    simp only [List.cons_append, List.takeWhile_cons, ha, if_true, List.length_cons]
    have := ih rest (fun c hc => h c (by simp [hc]))
    omega

/-- On a path that does not end with a slash, `filepath.Base` is the longest
suffix without a slash. -/
theorem filepathBase_data (src : String) (x : Char) (r : List Char)
    (hrev : src.data.reverse = x :: r) (hx : x ≠ '/') :
    (filepathBase src).data = ((x :: r).takeWhile (fun c => c ≠ '/')).reverse := by
  have hne : src ≠ "" := by
    intro h
    rw [h] at hrev
    simp at hrev
  unfold filepathBase
  rw [if_neg hne]
  simp only [hrev]
  have hdrop : List.dropWhile (fun c => decide (c = '/')) (x :: r) = x :: r := by
    simp [List.dropWhile_cons, hx]
  rw [hdrop, List.reverse_reverse]
  have htake : List.takeWhile (fun c => decide (c ≠ '/')) (x :: r) =
      x :: List.takeWhile (fun c => decide (c ≠ '/')) r := by
    simp [List.takeWhile_cons, hx]
  rw [htake]
  simp

/-- No chunk that `split` writes is the file being split. -/
theorem chunkName_ne_source (osTempDir src : String) (i : Nat) :
    chunkName (osTempDir ++ "/") (filepathBase src) i ≠ src := by
  intro h
  obtain ⟨hD, hlen⟩ := sprintf03d_no_slash i
  have hs : src.data = osTempDir.data ++ '/' ::
      ((filepathBase src).data ++ '_' :: (sprintf03d i).data) := by
    have := congrArg String.data h
    rw [← this]
    unfold chunkName
    simp [String.data_append]
  have hrev : src.data.reverse = ((sprintf03d i).data.reverse ++
      '_' :: (filepathBase src).data.reverse) ++ '/' :: osTempDir.data.reverse := by
    rw [hs]
    simp
  cases hDrev : (sprintf03d i).data.reverse with
  | nil =>
    have h0 : (sprintf03d i).data.reverse.length = 0 := by rw [hDrev]; rfl
    rw [List.length_reverse] at h0
    omega
  | cons x r =>
    have hx : x ≠ '/' := hD x (by
      have : x ∈ (sprintf03d i).data.reverse := by rw [hDrev]; simp
      simpa using this)
    have hrev2 : src.data.reverse = x :: (r ++ '_' :: (filepathBase src).data.reverse ++
        '/' :: osTempDir.data.reverse) := by
      rw [hrev, hDrev]
      simp
    have hB := filepathBase_data src x _ hrev2 hx
    rw [← hrev2] at hB
    have hBmem : ∀ c ∈ (filepathBase src).data, (fun c => decide (c ≠ '/')) c = true := by
      intro c hc
      rw [hB, List.mem_reverse] at hc
      exact List.mem_takeWhile_imp (p := fun c => decide (c ≠ '/')) hc
    have hA : ∀ c ∈ (sprintf03d i).data.reverse ++ '_' :: (filepathBase src).data.reverse,
        (fun c => decide (c ≠ '/')) c = true := by
      intro c hc
      rcases List.mem_append.mp hc with hc | hc
      · simpa using hD c (by simpa using hc)
      · rcases List.mem_cons.mp hc with rfl | hc
        · decide
        · exact hBmem c (by simpa using hc)
    have hle := length_le_takeWhile (fun c => decide (c ≠ '/')) _
      ('/' :: osTempDir.data.reverse) hA
    rw [← hrev] at hle
    have hlenB := congrArg List.length hB
    simp only [List.length_reverse] at hlenB
    simp only [List.length_append, List.length_reverse, List.length_cons] at hle
    omega

/-! ## Theorems: the loop of `split` -/

/-- Taking no more than the length is taking. -/
theorem take_min_length (c : Nat) (l : List UInt8) : l.take (min c l.length) = l.take c := by
  by_cases h : c ≤ l.length
  · rw [Nat.min_eq_left h]
  · have h2 : l.length ≤ c := by omega
    rw [Nat.min_eq_right h2, List.take_of_length_le h2, List.take_of_length_le (le_refl _)]

/-- One iteration of the loop of `split` whose part size is not negative and
whose chunk file can be created and written: the file written has the part size. -/
theorem splitLoop_step_size (io : Faults) (td fn src : String) (S c : Nat)
    (hS : S < 2 ^ 53) (hc : c ≤ S)
    (todo i offset : Nat) (filesPath : List String) (fs : FileSystem)
    (hi : i * c ≤ S) (hcr : io.createFails (chunkName td fn i) = false)
    (hwr : io.writeFailsAfter (chunkName td fn i) = none) :
    ∃ (buf : List UInt8) (offset' : Nat),
      splitLoop io td fn src S c (todo + 1) i offset filesPath fs =
        splitLoop io td fn src S c todo (i + 1) offset' (filesPath ++ [chunkName td fn i])
          (fs.writeFile (chunkName td fn i) buf) ∧
      buf.length = min c (S - i * c) := by
  have hp := partSize_exact S c i hS hc (by omega)
  have hp2 : partSize S c i = ((min c (S - i * c) : Nat) : Int) := by
    rw [hp]
    omega
  have hneg : ¬ (((min c (S - i * c) : Nat) : Int) < 0) := by omega
  refine ⟨(((fs src).getD []).drop offset).take (min (min c (S - i * c)) maxRW) ++
      List.replicate (min c (S - i * c) -
        ((((fs src).getD []).drop offset).take (min (min c (S - i * c)) maxRW)).length) 0,
    offset + ((((fs src).getD []).drop offset).take (min (min c (S - i * c)) maxRW)).length,
    ?_, ?_⟩
  · rw [splitLoop]
    simp only [hp2, Int.toNat_ofNat, hneg, if_false, hcr, Bool.false_eq_true, hwr]
  · simp only [List.length_append, List.length_replicate, List.length_take, List.length_drop]
    omega

/-- The loop of `split` when no part size is negative and every chunk file can
be created and written: it returns the chunk names and has written, for chunk `k`, a file of
`min(c, S - k*c)` bytes, leaving every other file as it was. -/
theorem splitLoop_sizes (io : Faults) (td fn src : String) (S c : Nat)
    (hS : S < 2 ^ 53) (hc : c ≤ S) :
    ∀ (todo i offset : Nat) (filesPath : List String) (fs : FileSystem),
      (∀ k, k < todo → (i + k) * c ≤ S) →
      (∀ k, k < todo → io.createFails (chunkName td fn (i + k)) = false) →
      (∀ k, k < todo → io.writeFailsAfter (chunkName td fn (i + k)) = none) →
      ∃ fs', splitLoop io td fn src S c todo i offset filesPath fs
          = SplitResult.ok (filesPath ++ (List.range' i todo).map (chunkName td fn)) fs' ∧
        (∀ p, (∀ k, k < todo → p ≠ chunkName td fn (i + k)) → fs' p = fs p) ∧
        (∀ k, k < todo → ∃ buf, fs' (chunkName td fn (i + k)) = some buf ∧
          buf.length = min c (S - (i + k) * c)) := by
  intro todo
  induction todo with
  | zero =>
    intro i offset filesPath fs _ _ _
    exact ⟨fs, by simp [splitLoop], fun _ _ => rfl, fun k hk => absurd hk (by omega)⟩
  | succ todo ih =>
    intro i offset filesPath fs hle hcr hwr
    have hi : i * c ≤ S := by simpa using hle 0 (by omega)
    obtain ⟨buf, offset', hstep, hlen⟩ := splitLoop_step_size io td fn src S c hS hc todo i
      offset filesPath fs hi (by simpa using hcr 0 (by omega)) (by simpa using hwr 0 (by omega))
    rw [hstep]
    obtain ⟨fs', h1, h2, h3⟩ := ih (i + 1) offset' (filesPath ++ [chunkName td fn i])
      (fs.writeFile (chunkName td fn i) buf)
      (by
        intro k hk
        have := hle (k + 1) (by omega)
        rw [show i + 1 + k = i + (k + 1) by omega]
        exact this)
      (by
        intro k hk
        have := hcr (k + 1) (by omega)
        rw [show i + 1 + k = i + (k + 1) by omega]
        exact this)
      (by
        intro k hk
        have := hwr (k + 1) (by omega)
        rw [show i + 1 + k = i + (k + 1) by omega]
        exact this)
    refine ⟨fs', ?_, ?_, ?_⟩
    · rw [h1, List.range'_succ]
      simp
    · intro p hp
      rw [h2 p (by
        intro k hk
        rw [show i + 1 + k = i + (k + 1) by omega]
        exact hp (k + 1) (by omega))]
      have hne : p ≠ chunkName td fn i := by simpa using hp 0 (by omega)
      simp [FileSystem.writeFile, hne]
    · intro k hk
      cases k with
      | zero =>
        refine ⟨buf, ?_, by simpa using hlen⟩
        rw [h2 _ (by
          intro k _ heq
          have := chunkName_injective td fn heq
          omega)]
        simp [FileSystem.writeFile]
      | succ k =>
        have := h3 k (by omega)
        rw [show i + 1 + k = i + (k + 1) by omega] at this
        exact this

/-- One iteration of the loop of `split` on a part of at most `maxRW` bytes: the
read fills the buffer, with the bytes `[i*c, i*c + c)` of the file. -/
theorem splitLoop_step (io : Faults) (td fn src : String) (content : List UInt8) (c : Nat)
    (hS : content.length < 2 ^ 53) (hc : c ≤ content.length) (hcap : c ≤ maxRW)
    (todo i : Nat) (filesPath : List String) (fs : FileSystem)
    (hsrc : fs src = some content) (hi : i * c ≤ content.length)
    (hcr : io.createFails (chunkName td fn i) = false)
    (hwr : io.writeFailsAfter (chunkName td fn i) = none) :
    splitLoop io td fn src content.length c (todo + 1) i (i * c) filesPath fs =
      splitLoop io td fn src content.length c todo (i + 1)
        (i * c + min c (content.length - i * c)) (filesPath ++ [chunkName td fn i])
        (fs.writeFile (chunkName td fn i) ((content.drop (i * c)).take c)) := by
  have hp := partSize_exact content.length c i hS hc (by omega)
  have hp2 : partSize content.length c i = ((min c (content.length - i * c) : Nat) : Int) := by
    rw [hp]
    omega
  have hmin : min (min c (content.length - i * c)) maxRW = min c (content.length - i * c) := by
    omega
  have hread : ((content.drop (i * c)).take (min c (content.length - i * c))) =
      (content.drop (i * c)).take c := by
    have := take_min_length c (content.drop (i * c))
    rw [List.length_drop] at this
    exact this
  rw [splitLoop]
  simp only [hsrc, Option.getD_some, hp2, Int.toNat_ofNat, hmin, hread]
  have hlen : ((content.drop (i * c)).take c).length = min c (content.length - i * c) := by
    simp [List.length_take, List.length_drop]
  rw [hlen]
  have hneg : ¬ (((min c (content.length - i * c) : Nat) : Int) < 0) := by omega
  simp [hneg, hcr, hwr]

/-- The loop of `split` when no part size is negative, no part exceeds `maxRW`
and every chunk file can be created and written: it returns the chunk names and has written
chunk `k` with the bytes `[k*c, k*c + c)` of the file, leaving every other file
as it was. -/
theorem splitLoop_ok (io : Faults) (td fn src : String) (content : List UInt8) (c : Nat)
    (hS : content.length < 2 ^ 53) (hc : c ≤ content.length) (hcap : c ≤ maxRW)
    (hne : ∀ k, chunkName td fn k ≠ src) :
    ∀ (todo i offset : Nat) (filesPath : List String) (fs : FileSystem),
      fs src = some content →
      (0 < todo → offset = i * c) →
      (∀ k, k < todo → (i + k) * c ≤ content.length) →
      (∀ k, k < todo → io.createFails (chunkName td fn (i + k)) = false) →
      (∀ k, k < todo → io.writeFailsAfter (chunkName td fn (i + k)) = none) →
      ∃ fs', splitLoop io td fn src content.length c todo i offset filesPath fs
          = SplitResult.ok (filesPath ++ (List.range' i todo).map (chunkName td fn)) fs' ∧
        (∀ p, (∀ k, k < todo → p ≠ chunkName td fn (i + k)) → fs' p = fs p) ∧
        (∀ k, k < todo →
          fs' (chunkName td fn (i + k)) = some ((content.drop ((i + k) * c)).take c)) := by
  intro todo
  induction todo with
  | zero =>
    intro i offset filesPath fs _ _ _ _ _
    exact ⟨fs, by simp [splitLoop], fun _ _ => rfl, fun k hk => absurd hk (by omega)⟩
  | succ todo ih =>
    intro i offset filesPath fs hsrc hoff hle hcr hwr
    have hi : i * c ≤ content.length := by simpa using hle 0 (by omega)
    rw [hoff (by omega), splitLoop_step io td fn src content c hS hc hcap todo i filesPath fs
      hsrc hi (by simpa using hcr 0 (by omega)) (by simpa using hwr 0 (by omega))]
    obtain ⟨fs', h1, h2, h3⟩ := ih (i + 1) (i * c + min c (content.length - i * c))
      (filesPath ++ [chunkName td fn i])
      (fs.writeFile (chunkName td fn i) ((content.drop (i * c)).take c))
      (by
        have : src ≠ chunkName td fn i := fun h => hne i h.symm
        simp [FileSystem.writeFile, this, hsrc])
      (by
        intro hpos
        have := hle 1 (by omega)
        rw [Nat.add_mul] at this ⊢
        omega)
      (by
        intro k hk
        have := hle (k + 1) (by omega)
        rw [show i + 1 + k = i + (k + 1) by omega]
        exact this)
      (by
        intro k hk
        have := hcr (k + 1) (by omega)
        rw [show i + 1 + k = i + (k + 1) by omega]
        exact this)
      (by
        intro k hk
        have := hwr (k + 1) (by omega)
        rw [show i + 1 + k = i + (k + 1) by omega]
        exact this)
    refine ⟨fs', ?_, ?_, ?_⟩
    · rw [h1, List.range'_succ]
      simp
    · intro p hp
      rw [h2 p (by
        intro k hk
        rw [show i + 1 + k = i + (k + 1) by omega]
        exact hp (k + 1) (by omega))]
      have hne : p ≠ chunkName td fn i := by simpa using hp 0 (by omega)
      simp [FileSystem.writeFile, hne]
    · intro k hk
      cases k with
      | zero =>
        rw [h2 _ (by
          intro k _ heq
          have := chunkName_injective td fn heq
          omega)]
        simp [FileSystem.writeFile]
      | succ k =>
        have := h3 k (by omega)
        rw [show i + 1 + k = i + (k + 1) by omega] at this
        exact this

/-- The loop of `split` when a part size is negative and every chunk file can be
created: it panics. -/
theorem splitLoop_panic (io : Faults) (td fn src : String) (S c : Nat)
    (hS : S < 2 ^ 53) (hc : c ≤ S) :
    ∀ (todo i offset : Nat) (filesPath : List String) (fs : FileSystem),
      i * c ≤ S + c →
      (∃ k, k < todo ∧ S < (i + k) * c) →
      (∀ k, k < todo → io.createFails (chunkName td fn (i + k)) = false) →
      splitLoop io td fn src S c todo i offset filesPath fs
        = SplitResult.panicMakeslice := by
  intro todo
  induction todo with
  | zero =>
    intro i offset filesPath fs _ h _
    obtain ⟨k, hk, _⟩ := h
    omega
  | succ todo ih =>
    intro i offset filesPath fs hi h hcr
    have hp := partSize_exact S c i hS hc hi
    rw [splitLoop]
    by_cases hneg : S < i * c
    · have : partSize S c i < 0 := by
        rw [hp]
        omega
      simp [this]
    · have : ¬ partSize S c i < 0 := by
        rw [hp]
        omega
      have hcr0 : io.createFails (chunkName td fn i) = false := by simpa using hcr 0 (by omega)
      simp only [this, if_false, hcr0, Bool.false_eq_true]
      apply ih
      · rw [Nat.add_mul]
        omega
      · obtain ⟨k, hk, hlt⟩ := h
        cases k with
        | zero => simp at hlt; omega
        | succ k => exact ⟨k, by omega, by rw [show i + 1 + k = i + (k + 1) by omega]; exact hlt⟩
      · intro k hk
        have := hcr (k + 1) (by omega)
        rw [show i + 1 + k = i + (k + 1) by omega]
        exact this

/-! ## Theorems: the chunk size -/

/-- The ceiling `fileChunk` times the chunk count covers the file. -/
theorem ceil_mul_ge (S n : Nat) (hn : 1 ≤ n) : S ≤ n * ((S + n - 1) / n) := by
  have h1 := Nat.div_add_mod (S + n - 1) n
  have h2 := Nat.mod_lt (S + n - 1) (show 0 < n by omega)
  omega

/-- The ceiling `fileChunk` is at most the file size. -/
theorem ceil_le_self (S n : Nat) (hn : 1 ≤ n) : (S + n - 1) / n ≤ S := by
  obtain ⟨n', rfl⟩ : ∃ n', n = n' + 1 := ⟨n - 1, by omega⟩
  cases S with
  | zero =>
    have : (0 + (n' + 1) - 1) / (n' + 1) = 0 := Nat.div_eq_of_lt (by omega)
    omega
  | succ S' =>
    apply Nat.div_le_of_le_mul
    have : (n' + 1) * (S' + 1) = n' * S' + n' + S' + 1 := by ring
    omega

/-- The integer formula of `fileChunk` is the ceiling of the quotient. -/
theorem fileChunk_eq_ceil (S n : Nat) (hn : 1 ≤ n) :
    fileChunk S n = ⌈(S : ℚ) / (n : ℚ)⌉ := by
  unfold fileChunk
  symm
  rw [Int.ceil_eq_iff]
  have hnq : (0 : ℚ) < n := by exact_mod_cast (show 0 < n by omega)
  have h1 := Nat.div_add_mod (S + n - 1) n
  have h2 := Nat.mod_lt (S + n - 1) (show 0 < n by omega)
  set c := (S + n - 1) / n with hcdef
  constructor
  · rw [lt_div_iff₀ hnq]
    have : (c : ℤ) - 1 = ((c : ℚ) - 1 : ℚ) := by push_cast; ring
    have h3 : n * c < S + n := by omega
    have h4 : ((n * c : Nat) : ℚ) < ((S + n : Nat) : ℚ) := by exact_mod_cast h3
    push_cast at h4 ⊢
    nlinarith
  · rw [div_le_iff₀ hnq]
    have h3 : S ≤ n * c := by omega
    have h4 : ((S : Nat) : ℚ) ≤ ((n * c : Nat) : ℚ) := by exact_mod_cast h3
    push_cast at h4 ⊢
    nlinarith

/-- Some rounding returns a nearest `float64`: the values are finitely many. -/
theorem exists_roundsToNearest : ∃ rnd : ℚ → ℚ, RoundsToNearest rnd := by
  have hfin : Set.Finite {f : ℚ | IsFloat64 f} := by
    have hsub : {f : ℚ | IsFloat64 f} ⊆
        Set.image (fun p : ℤ × ℤ => (p.1 : ℚ) * (2 : ℚ) ^ p.2)
          (Set.prod (Set.Icc (-(2 ^ 53)) (2 ^ 53)) (Set.Icc (-1074) 970)) := by
      rintro f ⟨m, q, hm, hq1, hq2, rfl⟩
      refine ⟨(m, q), ⟨?_, ?_⟩, rfl⟩
      · exact abs_le.mp hm
      · exact ⟨hq1, hq2⟩
    exact ((Set.finite_Icc _ _).prod (Set.finite_Icc _ _)).image _ |>.subset hsub
  have hne : {f : ℚ | IsFloat64 f}.Nonempty :=
    ⟨0, 0, 0, by norm_num, by norm_num, by norm_num, by simp⟩
  have hmin : ∀ x : ℚ, ∃ f ∈ {f : ℚ | IsFloat64 f}, ∀ g ∈ {f : ℚ | IsFloat64 f},
      |f - x| ≤ |g - x| :=
    fun x => Set.exists_min_image _ (fun f => |f - x|) hfin hne
  refine ⟨fun x => Classical.choose (hmin x), ?_⟩
  intro x
  exact ⟨(Classical.choose_spec (hmin x)).1, fun f hf => (Classical.choose_spec (hmin x)).2 f hf⟩

/-- A rounding to nearest leaves the `float64` values unchanged. -/
theorem round_of_float {rnd : ℚ → ℚ} (hr : RoundsToNearest rnd) {x : ℚ} (hx : IsFloat64 x) :
    rnd x = x := by
  have h := (hr x).2 x hx
  simp only [sub_self, abs_zero] at h
  have h2 := abs_nonneg (rnd x - x)
  have h3 : |rnd x - x| = 0 := le_antisymm h h2
  rw [abs_eq_zero] at h3
  linarith

/-- The natural numbers up to `2^53` are `float64` values. -/
theorem isFloat64_natCast (N : Nat) (hN : N ≤ 2 ^ 53) : IsFloat64 (N : ℚ) := by
  refine ⟨(N : ℤ), 0, ?_, by norm_num, by norm_num, by simp⟩
  rw [abs_of_nonneg (by positivity)]
  exact_mod_cast hN

/-- Between an integer `k ≥ 1` below `2^53` and the next one lies the `float64`
that follows `k`. -/
theorem isFloat64_next (k e : Nat) (he : e ≤ 52) (hk : k < 2 ^ (e + 1)) :
    IsFloat64 ((k : ℚ) + (2 : ℚ) ^ e / 2 ^ 52) := by
  rw [← zpow_natCast (2 : ℚ) e]
  refine ⟨(k : ℤ) * 2 ^ (52 - e) + 1, (e : ℤ) - 52, ?_, by omega, by omega, ?_⟩
  · rw [abs_of_nonneg (by positivity)]
    have h1 : k + 1 ≤ 2 ^ (e + 1) := hk
    have h2 : (k + 1) * 2 ^ (52 - e) ≤ 2 ^ (e + 1) * 2 ^ (52 - e) :=
      Nat.mul_le_mul_right _ h1
    have h3 : 2 ^ (e + 1) * 2 ^ (52 - e) = 2 ^ 53 := by
      rw [← pow_add]
      congr 1
      omega
    have h4 : 1 ≤ 2 ^ (52 - e) := Nat.one_le_two_pow
    have h5 : k * 2 ^ (52 - e) + 1 ≤ 2 ^ 53 := by
      rw [← h3]
      calc k * 2 ^ (52 - e) + 1 ≤ k * 2 ^ (52 - e) + 2 ^ (52 - e) := by omega
        _ = (k + 1) * 2 ^ (52 - e) := by ring
        _ ≤ _ := h2
    exact_mod_cast h5
  · have h52 : (2 : ℚ) ^ ((e : ℤ) - 52) = (2 : ℚ) ^ (e : ℤ) / 2 ^ 52 := by
      rw [zpow_sub₀ (by norm_num)]
      norm_cast
    have hmul : (2 : ℚ) ^ (52 - e) * ((2 : ℚ) ^ (e : ℤ) / 2 ^ 52) = 1 := by
      rw [zpow_natCast, ← mul_div_assoc, ← pow_add]
      have : 52 - e + e = 52 := by omega
      rw [this]
      norm_num
    rw [h52]
    push_cast
    rw [add_mul, mul_assoc, hmul]
    ring

/-- The ceiling of the rounded quotient is the ceiling of the quotient: for a
file size below `2^53` the `float64` computation of `fileChunk` in `split` gives
the integer ceiling. -/
theorem fileChunkFloat_eq (rnd : ℚ → ℚ) (hr : RoundsToNearest rnd) (S n : Nat)
    (hS : S < 2 ^ 53) (hn : 1 ≤ n) (hn2 : n < 2 ^ 53) :
    fileChunkFloat rnd S n = fileChunk S n := by
  unfold fileChunkFloat
  rw [round_of_float hr (isFloat64_natCast S (by omega)),
    round_of_float hr (isFloat64_natCast n (by omega)), fileChunk_eq_ceil S n hn]
  have hnq : (0 : ℚ) < n := by exact_mod_cast (show 0 < n by omega)
  have hdm := Nat.div_add_mod S n
  have hmod := Nat.mod_lt S (show 0 < n by omega)
  have hkS : n * (S / n) ≤ S := by omega
  have hx : (S : ℚ) / n = ((S / n : Nat) : ℚ) + ((S % n : Nat) : ℚ) / n := by
    field_simp
    have : ((n * (S / n) + S % n : Nat) : ℚ) = (S : ℚ) := by rw [hdm]
    push_cast at this
    linarith
  generalize hk : S / n = k at hx hkS hdm
  generalize hrr : S % n = r at hx hmod hdm
  have hkle : k ≤ S := by
    calc k = 1 * k := by ring
      _ ≤ n * k := Nat.mul_le_mul_right _ hn
      _ ≤ S := hkS
  rcases Nat.eq_zero_or_pos r with hr0 | hrpos
  · subst hr0
    have hxk : (S : ℚ) / n = (k : ℚ) := by simpa using hx
    rw [hxk, round_of_float hr (isFloat64_natCast k (by omega))]
  · have hrq : (0 : ℚ) < (r : ℚ) / n := by
      apply div_pos _ hnq
      exact_mod_cast hrpos
    have hrlt : (r : ℚ) / n < 1 := by
      rw [div_lt_one hnq]
      exact_mod_cast hmod
    have hup : rnd ((S : ℚ) / n) ≤ (k : ℚ) + 1 := by
      have h1 := (hr ((S : ℚ) / n)).2 ((k + 1 : Nat) : ℚ)
        (isFloat64_natCast (k + 1) (by omega))
      have h2 : |((k + 1 : Nat) : ℚ) - (S : ℚ) / n| = (k : ℚ) + 1 - (S : ℚ) / n := by
        rw [abs_of_nonneg]
        · push_cast; ring
        · push_cast; rw [hx]; linarith
      rw [h2] at h1
      have h3 := le_abs_self (rnd ((S : ℚ) / n) - (S : ℚ) / n)
      linarith
    have hnear : ∃ f : ℚ, IsFloat64 f ∧ |f - (S : ℚ) / n| < (r : ℚ) / n := by
      rcases Nat.eq_zero_or_pos k with hk0 | hkpos
      · subst hk0
        refine ⟨(2 : ℚ) ^ (-53 : ℤ), ⟨1, -53, by norm_num, by norm_num, by norm_num, by simp⟩, ?_⟩
        have hxr : (S : ℚ) / n = (r : ℚ) / n := by simpa using hx
        rw [hxr]
        have hf : (2 : ℚ) ^ (-53 : ℤ) < (r : ℚ) / n := by
          rw [lt_div_iff₀ hnq]
          have h1 : (n : ℚ) < 2 ^ 53 := by exact_mod_cast hn2
          have h2 : (1 : ℚ) ≤ r := by exact_mod_cast hrpos
          have h3 : (2 : ℚ) ^ (-53 : ℤ) * 2 ^ 53 = 1 := by norm_num
          have h4 : (0 : ℚ) < (2 : ℚ) ^ (-53 : ℤ) := by positivity
          nlinarith
        have hfpos : (0 : ℚ) < (2 : ℚ) ^ (-53 : ℤ) := by positivity
        rw [abs_lt]
        constructor <;> linarith
      · have he1 : 2 ^ Nat.log 2 k ≤ k := Nat.pow_log_le_self 2 (by omega)
        have he2 : k < 2 ^ (Nat.log 2 k + 1) := Nat.lt_pow_succ_log_self (by decide) k
        generalize Nat.log 2 k = e at he1 he2
        have he : e ≤ 52 := by
          by_contra hcon
          have : 2 ^ 53 ≤ 2 ^ e := Nat.pow_le_pow_right (by decide) (by omega)
          omega
        refine ⟨(k : ℚ) + (2 : ℚ) ^ e / 2 ^ 52, isFloat64_next k e he he2, ?_⟩
        have hd : (0 : ℚ) < (2 : ℚ) ^ e / 2 ^ 52 := by positivity
        have hd2 : (2 : ℚ) ^ e / 2 ^ 52 < 2 * ((r : ℚ) / n) := by
          rw [div_lt_iff₀ (by positivity)]
          have h1 : 2 ^ e * n ≤ k * n := Nat.mul_le_mul_right _ he1
          have h2 : 2 ^ e * n < 2 ^ 53 := by
            have : k * n = n * k := Nat.mul_comm _ _
            omega
          have h3 : ((2 ^ e * n : Nat) : ℚ) < ((2 ^ 53 : Nat) : ℚ) := by exact_mod_cast h2
          push_cast at h3
          have h4 : (1 : ℚ) ≤ r := by exact_mod_cast hrpos
          have h5 : 2 * ((r : ℚ) / n) * 2 ^ 52 = (2 ^ 53 * r) / n := by ring
          rw [h5, lt_div_iff₀ hnq]
          have h6 : (0 : ℚ) < 2 ^ 53 := by positivity
          nlinarith
        rw [hx, abs_lt]
        constructor <;> linarith
    obtain ⟨f, hfF, hfx⟩ := hnear
    have hlow : (k : ℚ) < rnd ((S : ℚ) / n) := by
      by_contra hcon
      push_neg at hcon
      have h1 := (hr ((S : ℚ) / n)).2 f hfF
      have h2 := neg_abs_le (rnd ((S : ℚ) / n) - (S : ℚ) / n)
      rw [hx] at h1 h2 hfx hcon
      linarith
    have hc1 : ⌈rnd ((S : ℚ) / n)⌉ = (k : ℤ) + 1 := by
      rw [Int.ceil_eq_iff]
      push_cast
      constructor <;> linarith
    have hc2 : ⌈(S : ℚ) / n⌉ = (k : ℤ) + 1 := by
      rw [Int.ceil_eq_iff]
      push_cast
      rw [hx]
      constructor <;> linarith
    rw [hc1, hc2]

/-- The integers up to `2^53` in absolute value are `float64` values. -/
theorem isFloat64_intCast (z : Int) (hz : |z| ≤ 2 ^ 53) : IsFloat64 (z : ℚ) :=
  ⟨z, 0, hz, by norm_num, by norm_num, by simp⟩

/-- Above `2^53` the `float64` values are even integers: none lies between
`2^53` and `2^53 + 2`. -/
theorem float64_gap {y : ℚ} (hy : IsFloat64 y) (h : (2 : ℚ) ^ 53 < y) :
    (2 : ℚ) ^ 53 + 2 ≤ y := by
  obtain ⟨m, q, hm, _, _, rfl⟩ := hy
  have hmq : (|m| : ℤ) ≤ 2 ^ 53 := hm
  have hmle : (m : ℚ) ≤ 2 ^ 53 := by
    have : m ≤ 2 ^ 53 := le_trans (le_abs_self m) hm
    exact_mod_cast this
  have hq : 1 ≤ q := by
    by_contra hcon
    have hq0 : q ≤ 0 := by omega
    have h2 : (2 : ℚ) ^ q ≤ 1 := zpow_le_one_of_nonpos₀ (by norm_num) hq0
    have h2pos : (0 : ℚ) < (2 : ℚ) ^ q := by positivity
    have hmpos : (0 : ℚ) < m := by
      by_contra hm0
      push_neg at hm0
      have : (m : ℚ) * (2 : ℚ) ^ q ≤ 0 := mul_nonpos_of_nonpos_of_nonneg hm0 h2pos.le
      have h53 : (0 : ℚ) < (2 : ℚ) ^ 53 := by positivity
      linarith
    have : (m : ℚ) * (2 : ℚ) ^ q ≤ (m : ℚ) * 1 := mul_le_mul_of_nonneg_left h2 hmpos.le
    linarith
  obtain ⟨k, rfl⟩ : ∃ k : ℕ, q = (k : ℤ) + 1 := ⟨(q - 1).toNat, by omega⟩
  have hpow : (2 : ℚ) ^ ((k : ℤ) + 1) = 2 * (2 : ℚ) ^ k := by
    rw [zpow_add_one₀ (by norm_num), zpow_natCast]
    ring
  rw [hpow] at h ⊢
  have ht : (m : ℚ) * (2 * (2 : ℚ) ^ k) = 2 * ((m * 2 ^ k : ℤ) : ℚ) := by
    push_cast
    ring
  rw [ht] at h ⊢
  have h1 : ((2 ^ 52 : ℤ) : ℚ) < ((m * 2 ^ k : ℤ) : ℚ) := by
    push_cast
    push_cast at h
    linarith
  have h2 : (2 ^ 52 : ℤ) < m * 2 ^ k := by exact_mod_cast h1
  have h3 : (2 ^ 52 : ℤ) + 1 ≤ m * 2 ^ k := h2
  have h4 : (((2 ^ 52 : ℤ) + 1 : ℤ) : ℚ) ≤ ((m * 2 ^ k : ℤ) : ℚ) := by exact_mod_cast h3
  push_cast at h4 ⊢
  linarith

/-- While the loop of `split` runs on a file below `2^53` bytes, the integer on
which the remaining size is computed is `fileSize - i*fileChunk`. -/
theorem remaining_exact (S c i : Nat) (hS : S < 2 ^ 53) (hc : c ≤ S) (hi : i * c ≤ S + c) :
    toInt64 ((S : Int) - toInt64 (toUint64 ((i : Int) * toUint64 (c : Int)))) =
      (S : Int) - ((i * c : Nat) : Int) := by
  rw [toUint64_natCast c (by omega)]
  have hm : (i : Int) * (c : Int) = ((i * c : Nat) : Int) := by push_cast; rfl
  rw [hm]
  generalize i * c = m at hi ⊢
  rw [toUint64_natCast m (by omega), toInt64_of_range (m : Int) (by omega) (by omega),
    toInt64_of_range _ (by omega) (by omega)]

/-- For a file size and a chunk count below `2^53`, while the loop of `split`
runs, the `float64` computation of `partSize` gives the integer `partSize`. -/
theorem partSizeFloat_eq (rnd : ℚ → ℚ) (hr : RoundsToNearest rnd) (S n i : Nat)
    (hS : S < 2 ^ 53) (hn : 1 ≤ n) (hn2 : n < 2 ^ 53)
    (hi : i * ((S + n - 1) / n) ≤ S + (S + n - 1) / n) :
    partSizeFloat rnd S n i = partSize S (fileChunk S n) i := by
  have hfc := fileChunkFloat_eq rnd hr S n hS hn hn2
  have hc := ceil_le_self S n hn
  have hfc2 : fileChunk S n = (((S + n - 1) / n : Nat) : Int) := rfl
  unfold partSizeFloat
  rw [hfc, hfc2]
  generalize (S + n - 1) / n = c at hi hc
  rw [remaining_exact S c i hS hc hi, partSize_exact S c i hS hc hi]
  have hz : |(S : Int) - ((i * c : Nat) : Int)| ≤ 2 ^ 53 := by
    rw [abs_le]
    constructor <;> omega
  rw [round_of_float hr (isFloat64_intCast _ hz), ← Int.cast_min]
  simp only [Int.floor_intCast, Int.ceil_intCast, ite_self]

/-- For a file of `2^53 + 1` bytes split in one chunk, the `float64` computation
of `partSize` does not give the file size: the bound `2^53` is sharp. -/
theorem partSizeFloat_above (rnd : ℚ → ℚ) (hr : RoundsToNearest rnd) :
    partSizeFloat rnd (2 ^ 53 + 1) 1 0 ≠ 2 ^ 53 + 1 := by
  have h1 : rnd ((1 : Nat) : ℚ) = 1 := by
    have := round_of_float hr (isFloat64_natCast 1 (by norm_num))
    simpa using this
  obtain ⟨hyF, hynear⟩ := hr (((2 ^ 53 + 1 : Nat) : ℚ))
  have hfc : fileChunkFloat rnd (2 ^ 53 + 1) 1 = ⌈rnd (((2 ^ 53 + 1 : Nat) : ℚ))⌉ := by
    unfold fileChunkFloat
    rw [h1, div_one, round_of_float hr hyF]
  have hinner : toInt64 (((2 ^ 53 + 1 : Nat) : Int) - toInt64 (toUint64
      (((0 : Nat) : Int) * toUint64 (fileChunkFloat rnd (2 ^ 53 + 1) 1)))) =
      ((2 ^ 53 + 1 : Nat) : Int) := by
    simp only [Nat.cast_zero, zero_mul]
    unfold toUint64 toInt64
    norm_num
  unfold partSizeFloat
  rw [hinner, hfc, Int.cast_natCast]
  generalize rnd (((2 ^ 53 + 1 : Nat) : ℚ)) = y at hyF hynear
  have hnear := hynear ((2 : ℚ) ^ 53) (by
    have := isFloat64_natCast (2 ^ 53) (le_refl _)
    simpa using this)
  have hdist : |(2 : ℚ) ^ 53 - ((2 ^ 53 + 1 : Nat) : ℚ)| = 1 := by
    push_cast
    norm_num
  rw [hdist] at hnear
  have hlow : (2 : ℚ) ^ 53 ≤ y := by
    have := neg_abs_le (y - ((2 ^ 53 + 1 : Nat) : ℚ))
    push_cast at this hnear
    linarith
  have hmin : min ((⌈y⌉ : Int) : ℚ) y = y := min_eq_right (Int.le_ceil y)
  have hpos : (0 : ℚ) ≤ y := le_trans (by positivity) hlow
  rw [hmin, if_pos hpos]
  intro hfloor
  have hfl := Int.floor_eq_iff.mp hfloor
  push_cast at hfl
  rcases lt_or_le ((2 : ℚ) ^ 53) y with hgt | hle
  · have := float64_gap hyF hgt
    linarith [hfl.2]
  · linarith [hfl.1]

/-- The first `m` consecutive pieces of `c` bytes make up the first `m*c` bytes. -/
theorem flatten_chunks (c : Nat) (l : List UInt8) : ∀ m : Nat,
    ((List.range m).map (fun k => (l.drop (k * c)).take c)).flatten = l.take (m * c) := by
  intro m
  induction m with
  | zero => simp
  | succ m ih =>
    rw [List.range_succ, List.map_append, List.flatten_append, ih]
    simp only [List.map_cons, List.map_nil, List.flatten_cons, List.flatten_nil, List.append_nil]
    rw [Nat.succ_mul, List.take_add]

/-- No chunk index has a part size below zero exactly when the last one has none. -/
theorem all_le_iff_last (S c n : Nat) (hn : 1 ≤ n) :
    (∀ k, k < n → (0 + k) * c ≤ S) ↔ (n - 1) * c ≤ S := by
  constructor
  · intro h
    simpa using h (n - 1) (by omega)
  · intro h k hk
    have : k * c ≤ (n - 1) * c := Nat.mul_le_mul_right c (by omega)
    simpa using le_trans this h

/-! ## Theorems: `concatFiles` and `split` -/

/-- A file just written holds what was written. -/
theorem writeFile_self (fs : FileSystem) (name : String) (data : List UInt8) :
    (fs.writeFile name data) name = some data := by
  simp [FileSystem.writeFile]

/-- Writing a file leaves the other files as they were. -/
theorem writeFile_other (fs : FileSystem) (name : String) (data : List UInt8) (p : String)
    (h : p ≠ name) : (fs.writeFile name data) p = fs p := by
  simp [FileSystem.writeFile, h]

/-- The loop of `concatFiles` on existing inputs other than the output, whose
copies do not fail, appends their contents, in the order given, to the output. -/
theorem concatFilesLoop_spec (io : Faults) (out : String) :
    ∀ (names : List String) (chunks : List (List UInt8)) (fs : FileSystem)
      (existing : List UInt8),
      (∀ p ∈ names, p ≠ out) → (∀ p ∈ names, io.copyFailsAfter p = none) →
      names.map fs = chunks.map some → fs out = some existing →
      ∃ fs', concatFilesLoop io out names fs = ConcatResult.returned fs' false ∧
        fs' out = some (existing ++ chunks.flatten) ∧
        (∀ p, p ≠ out → fs' p = fs p) := by
  intro names
  induction names with
  | nil =>
    intro chunks fs existing _ _ hmap hout
    cases chunks with
    | nil => exact ⟨fs, rfl, by simp [hout], fun _ _ => rfl⟩
    | cons d ds => simp at hmap
  | cons p rest ih =>
    intro chunks fs existing hne hcopy hmap hout
    cases chunks with
    | nil => simp at hmap
    | cons d ds =>
      simp only [List.map_cons, List.cons.injEq] at hmap
      obtain ⟨hp, hrest⟩ := hmap
      have hpo : p ≠ out := hne p (by simp)
      have hpc : io.copyFailsAfter p = none := hcopy p (by simp)
      have hrest2 : rest.map (fs.appendFile out d) = ds.map some := by
        rw [← hrest]
        apply List.map_congr_left
        intro q hq
        have : q ≠ out := hne q (by simp [hq])
        simp [FileSystem.appendFile, FileSystem.writeFile, this]
      have hout2 : (fs.appendFile out d) out = some (existing ++ d) := by
        simp [FileSystem.appendFile, FileSystem.writeFile, hout]
      obtain ⟨fs', h1, h2, h3⟩ := ih ds (fs.appendFile out d) (existing ++ d)
        (fun q hq => hne q (by simp [hq])) (fun q hq => hcopy q (by simp [hq])) hrest2 hout2
      refine ⟨fs', ?_, ?_, ?_⟩
      · simp only [concatFilesLoop, hp, hpo, false_and, if_false, hpc]
        exact h1
      · rw [h2]
        simp
      · intro q hq
        rw [h3 q hq]
        simp [FileSystem.appendFile, FileSystem.writeFile, hq]

/-- The function `concatFiles`, when the output can be opened, on existing inputs
other than the output whose copies do not fail: it returns without error and has
appended their contents, in the order given, to what the output held. -/
theorem concatFiles_spec (io : Faults) (fs : FileSystem) (names : List String) (out : String)
    (chunks : List (List UInt8))
    (hopen : io.openOutputFails out = false)
    (hne : ∀ p ∈ names, p ≠ out) (hcopy : ∀ p ∈ names, io.copyFailsAfter p = none)
    (hmap : names.map fs = chunks.map some) :
    ∃ fs', concatFiles io fs names out = ConcatResult.returned fs' false ∧
      fs' out = some ((fs out).getD [] ++ chunks.flatten) ∧
      (∀ p, p ≠ out → fs' p = fs p) := by
  unfold concatFiles
  have hmap2 : names.map (fs.appendFile out []) = chunks.map some := by
    rw [← hmap]
    apply List.map_congr_left
    intro q hq
    have : q ≠ out := hne q hq
    simp [FileSystem.appendFile, FileSystem.writeFile, this]
  have hout : (fs.appendFile out []) out = some ((fs out).getD []) := by
    simp [FileSystem.appendFile, FileSystem.writeFile]
  obtain ⟨fs', h1, h2, h3⟩ := concatFilesLoop_spec io out names chunks (fs.appendFile out [])
    ((fs out).getD []) hne hcopy hmap2 hout
  refine ⟨fs', ?_, h2, ?_⟩
  · simp only [hopen, Bool.false_eq_true, if_false]
    exact h1
  · intro q hq
    rw [h3 q hq]
    simp [FileSystem.appendFile, FileSystem.writeFile, hq]

/-- When no part size is negative, no part exceeds `maxRW` and every chunk file
can be created and written, `split` returns the `n` chunk names and has written chunk `k`
with the bytes `[k*c, k*c + c)` of the file. -/
theorem split_ok_of_le (io : Faults) (osTempDir src : String) (fs : FileSystem)
    (content : List UInt8) (n : Nat)
    (hsrc : fs src = some content) (hS : content.length < 2 ^ 53) (hn : 1 ≤ n)
    (hcreate : ∀ k, k < n →
      io.createFails (chunkName (osTempDir ++ "/") (filepathBase src) k) = false)
    (hwrite : ∀ k, k < n →
      io.writeFailsAfter (chunkName (osTempDir ++ "/") (filepathBase src) k) = none)
    (hcap : (content.length + n - 1) / n ≤ maxRW)
    (hle : (n - 1) * ((content.length + n - 1) / n) ≤ content.length) :
    ∃ fs', split io osTempDir fs src n =
        SplitResult.ok ((List.range n).map (chunkName (osTempDir ++ "/") (filepathBase src))) fs' ∧
      (∀ p, (∀ k, k < n → p ≠ chunkName (osTempDir ++ "/") (filepathBase src) k) →
        fs' p = fs p) ∧
      (∀ k, k < n → fs' (chunkName (osTempDir ++ "/") (filepathBase src) k) =
        some ((content.drop (k * ((content.length + n - 1) / n))).take
          ((content.length + n - 1) / n))) := by
  obtain ⟨fs', h1, h2, h3⟩ := splitLoop_ok io (osTempDir ++ "/") (filepathBase src) src content
    ((content.length + n - 1) / n) hS (ceil_le_self _ n hn) hcap
    (chunkName_ne_source osTempDir src) n 0 0 [] fs hsrc
    (by intro _; simp) ((all_le_iff_last _ _ n hn).mpr hle) (by simpa using hcreate)
    (by simpa using hwrite)
  refine ⟨fs', ?_, ?_, ?_⟩
  · simp only [split, hsrc, fileChunk]
    rw [h1, List.range_eq_range']
    simp
  · intro p hp
    exact h2 p (by simpa using hp)
  · intro k hk
    simpa using h3 k hk

/-- When no part size is negative and every chunk file can be created and
written, `split` returns the `n` chunk names and has written, for chunk `k`, a file of
`min(c, S - k*c)` bytes. -/
theorem split_sizes_of_le (io : Faults) (osTempDir src : String) (fs : FileSystem)
    (content : List UInt8) (n : Nat)
    (hsrc : fs src = some content) (hS : content.length < 2 ^ 53) (hn : 1 ≤ n)
    (hcreate : ∀ k, k < n →
      io.createFails (chunkName (osTempDir ++ "/") (filepathBase src) k) = false)
    (hwrite : ∀ k, k < n →
      io.writeFailsAfter (chunkName (osTempDir ++ "/") (filepathBase src) k) = none)
    (hle : (n - 1) * ((content.length + n - 1) / n) ≤ content.length) :
    ∃ fs', split io osTempDir fs src n =
        SplitResult.ok ((List.range n).map (chunkName (osTempDir ++ "/") (filepathBase src))) fs' ∧
      (∀ k, k < n → ∃ buf, fs' (chunkName (osTempDir ++ "/") (filepathBase src) k) = some buf ∧
        buf.length = min ((content.length + n - 1) / n)
          (content.length - k * ((content.length + n - 1) / n))) := by
  obtain ⟨fs', h1, _, h3⟩ := splitLoop_sizes io (osTempDir ++ "/") (filepathBase src) src
    content.length ((content.length + n - 1) / n) hS (ceil_le_self _ n hn) n 0 0 [] fs
    ((all_le_iff_last _ _ n hn).mpr hle) (by simpa using hcreate)
    (by simpa using hwrite)
  refine ⟨fs', ?_, ?_⟩
  · simp only [split, hsrc, fileChunk]
    rw [h1, List.range_eq_range']
    simp
  · intro k hk
    simpa using h3 k hk

/-- When the last part size is negative and every chunk file can be created,
`split` panics. -/
theorem split_panic_of_lt (io : Faults) (osTempDir src : String) (fs : FileSystem)
    (content : List UInt8) (n : Nat)
    (hsrc : fs src = some content) (hS : content.length < 2 ^ 53) (hn : 1 ≤ n)
    (hcreate : ∀ k, k < n →
      io.createFails (chunkName (osTempDir ++ "/") (filepathBase src) k) = false)
    (hlt : content.length < (n - 1) * ((content.length + n - 1) / n)) :
    split io osTempDir fs src n = SplitResult.panicMakeslice := by
  simp only [split, hsrc, fileChunk]
  exact splitLoop_panic io (osTempDir ++ "/") (filepathBase src) src content.length
    ((content.length + n - 1) / n) hS (ceil_le_self _ n hn) n 0 0 [] fs (by simp)
    ⟨n - 1, by omega, by simpa using hlt⟩ (by simpa using hcreate)

/-- The function `split` with one chunk, on a file below `2^53` bytes: the chunk
holds the first `maxRW` bytes of the file, followed by zeros up to its size. -/
theorem split_single_chunk (io : Faults) (osTempDir src : String) (fs : FileSystem)
    (content : List UInt8)
    (hsrc : fs src = some content) (hS : content.length < 2 ^ 53)
    (hcreate : io.createFails (chunkName (osTempDir ++ "/") (filepathBase src) 0) = false)
    (hwrite : io.writeFailsAfter (chunkName (osTempDir ++ "/") (filepathBase src) 0) = none) :
    split io osTempDir fs src 1 =
      SplitResult.ok [chunkName (osTempDir ++ "/") (filepathBase src) 0]
        (fs.writeFile (chunkName (osTempDir ++ "/") (filepathBase src) 0)
          (content.take maxRW ++
            List.replicate (content.length - min maxRW content.length) 0)) := by
  have hfc : fileChunk content.length 1 = ((content.length : Nat) : Int) := by
    unfold fileChunk
    simp
  have hp := partSize_exact content.length content.length 0 hS (le_refl _) (by omega)
  have hp2 : partSize content.length content.length 0 = ((content.length : Nat) : Int) := by
    rw [hp]
    simp
  have hmin : min content.length maxRW = min maxRW content.length := Nat.min_comm _ _
  simp only [split, hsrc, hfc]
  rw [splitLoop]
  simp only [hsrc, Option.getD_some, hp2, Int.toNat_ofNat, List.drop_zero, hcreate, hwrite,
    Bool.false_eq_true, if_false, splitLoop, List.nil_append, hmin, take_min_length,
    List.length_take]
  have hneg : ¬ ((content.length : Int) < 0) := by omega
  simp only [hneg, if_false]

/-- The bound on the last part size, on integers and on naturals. -/
theorem last_part_le_iff (S n : Nat) (hn : 1 ≤ n) :
    ((n : Int) - 1) * fileChunk S n ≤ (S : Int) ↔ (n - 1) * ((S + n - 1) / n) ≤ S := by
  unfold fileChunk
  have h : ((n : Int) - 1) = ((n - 1 : Nat) : Int) := by omega
  rw [h, ← Nat.cast_mul, Nat.cast_le]

/-- Past the file's end there is a chunk index, below the chunk count, whose
part size is negative. -/
theorem exists_negative_partSize (S n : Nat) (hS : S < 2 ^ 53) (hn : 1 ≤ n)
    (hlt : S < (n - 1) * ((S + n - 1) / n)) :
    ∃ i, i < n ∧ partSize S (fileChunk S n) i < 0 := by
  have hc := ceil_le_self S n hn
  unfold fileChunk
  generalize (S + n - 1) / n = c at hlt hc
  have hcpos : 0 < c := by
    rcases Nat.eq_zero_or_pos c with h | h
    · subst h; simp at hlt
    · exact h
  have h1 : S / c < n - 1 := (Nat.div_lt_iff_lt_mul hcpos).mpr hlt
  have h2 : S / c * c ≤ S := Nat.div_mul_le_self S c
  have h3 : S < c * (S / c + 1) := Nat.lt_mul_div_succ S hcpos
  have h4 : (S / c + 1) * c = S / c * c + c := by ring
  have h5 : c * (S / c + 1) = S / c * c + c := by ring
  refine ⟨S / c + 1, by omega, ?_⟩
  rw [partSize_exact S c (S / c + 1) hS hc (by omega)]
  have : (((S / c + 1) * c : Nat) : Int) > (S : Int) := by
    have : S < (S / c + 1) * c := by omega
    exact_mod_cast this
  omega

/-- A file system of one file holds that file. -/
theorem singleFile_self (path : String) (content : List UInt8) :
    singleFile path content path = some content := by
  simp [singleFile]

/-- A run of one byte followed by a run of another is not a run of the first. -/
theorem replicate_append_ne (a b : UInt8) (hab : a ≠ b) (m k : Nat) (hk : 0 < k) :
    List.replicate m a ++ List.replicate k b ≠ List.replicate (m + k) a := by
  intro h
  have h2 := congrArg (fun l : List UInt8 => l[m]?) h
  simp only [] at h2
  rw [List.getElem?_append_right (by simp), List.length_replicate, Nat.sub_self,
    List.getElem?_replicate, List.getElem?_replicate, if_pos hk, if_pos (by omega)] at h2
  exact hab (Option.some.inj h2).symm

/-- The read of a 3 GiB file in one part stops after `maxRW` bytes. -/
theorem threeGiB_read :
    threeGiB.length = 3 * 2 ^ 30 ∧
    threeGiB.take maxRW ++ List.replicate (threeGiB.length - min maxRW threeGiB.length) 0
      = threeGiBChunk ∧
    threeGiBChunk ≠ threeGiB := by
  have hlen : threeGiB.length = 3 * 2 ^ 30 := List.length_replicate _ _
  refine ⟨hlen, ?_, ?_⟩
  · rw [hlen]
    unfold threeGiB threeGiBChunk
    rw [List.take_replicate]
    have h1 : min maxRW (3 * 2 ^ 30) = 2 ^ 30 := by decide
    have h2 : 3 * 2 ^ 30 - 2 ^ 30 = 2 * 2 ^ 30 := by decide
    rw [h1, h2]
  · unfold threeGiB threeGiBChunk
    have h3 : 3 * 2 ^ 30 = 2 ^ 30 + 2 * 2 ^ 30 := by decide
    rw [h3]
    exact replicate_append_ne 1 0 (by decide) _ _ (by decide)

/-- The function `split` on a 3 GiB file and one chunk: the chunk written is the
first GiB of the file followed by zeros. -/
theorem split_threeGiB :
    split noFaults "/tmp" (singleFile "/tmp/a.mgbackup" threeGiB) "/tmp/a.mgbackup" 1 =
      SplitResult.ok ["/tmp/a.mgbackup_000"]
        ((singleFile "/tmp/a.mgbackup" threeGiB).writeFile "/tmp/a.mgbackup_000"
          threeGiBChunk) := by
  have h := split_single_chunk noFaults "/tmp" "/tmp/a.mgbackup"
    (singleFile "/tmp/a.mgbackup" threeGiB) threeGiB (singleFile_self _ _)
    (by rw [threeGiB_read.1]; decide) rfl rfl
  rw [threeGiB_read.2.1] at h
  have hname : chunkName ("/tmp" ++ "/") (filepathBase "/tmp/a.mgbackup") 0
      = "/tmp/a.mgbackup_000" := by decide
  rw [hname] at h
  exact h

/-- C10 (as stated, refuted): a 3 GiB file split in one chunk satisfies
`(n-1) * ceil(S/n) ≤ S` and `split` completes, but the chunk is the first GiB of
the file followed by zeros, not the file; a 4-byte file split in two, with
`1 * 2 ≤ 4`, is not split when the second chunk file cannot be created; and when
writing the second chunk file fails after one byte, `split` completes with the
chunks `[1, 2]` and `[3]`, which are not the file. -/
theorem split_completes_iff_counterexample :
    (((1 : Int) - 1) * fileChunk threeGiB.length 1 ≤ (threeGiB.length : Int) ∧
      ∃ fs', split noFaults "/tmp" (singleFile "/tmp/a.mgbackup" threeGiB)
          "/tmp/a.mgbackup" 1 = SplitResult.ok ["/tmp/a.mgbackup_000"] fs' ∧
        fs' "/tmp/a.mgbackup_000" = some threeGiBChunk ∧ threeGiBChunk ≠ threeGiB) ∧
    (((2 : Int) - 1) * fileChunk 4 2 ≤ 4 ∧
      split ⟨fun p => p == "/tmp/a.mgbackup_001", fun _ => none, fun _ => false,
          fun _ => none⟩ "/tmp"
        (singleFile "/tmp/a.mgbackup" [1, 2, 3, 4]) "/tmp/a.mgbackup" 2
        = SplitResult.createError) ∧
    (∃ fs', split ⟨fun _ => false,
          fun p => if p = "/tmp/a.mgbackup_001" then some 1 else none, fun _ => false,
          fun _ => none⟩ "/tmp"
        (singleFile "/tmp/a.mgbackup" [1, 2, 3, 4]) "/tmp/a.mgbackup" 2
        = SplitResult.ok ["/tmp/a.mgbackup_000", "/tmp/a.mgbackup_001"] fs' ∧
      ["/tmp/a.mgbackup_000", "/tmp/a.mgbackup_001"].map fs' = [some [1, 2], some [3]]) := by
  refine ⟨⟨?_, _, split_threeGiB, writeFile_self _ _ _, threeGiB_read.2.2⟩, ⟨by decide, rfl⟩,
    _, rfl, by decide⟩
  simp

/-- C10 (amended): for a file of less than `2^53` bytes and `n ≥ 1`, when each of
the `n` chunk files can be created: provided `ceil(size/n)` is at most 1 GiB
and each chunk file can be written, `split` completes with `n` chunk files whose
contents, concatenated in index order, are the file, exactly when
`(n-1) * ceil(size/n) ≤ size`; and when `(n-1) * ceil(size/n) > size` some part
size is negative and `split` panics on the negative buffer length, which also
happens for sizes not below `n`, such as 5 bytes in 4 chunks. Here `ceil(size/n)` is `fileChunk`, the value that the
`float64` computation of `split` yields under any rounding to nearest. -/
theorem split_completes_iff (io : Faults) (osTempDir src : String) (fs : FileSystem)
    (content : List UInt8) (n : Nat)
    (hsrc : fs src = some content) (hS : content.length < 2 ^ 53) (hn : 1 ≤ n)
    (hcreate : ∀ k, k < n →
      io.createFails (chunkName (osTempDir ++ "/") (filepathBase src) k) = false) :
    (fileChunk content.length n ≤ (maxRW : Int) →
      (∀ k, k < n →
        io.writeFailsAfter (chunkName (osTempDir ++ "/") (filepathBase src) k) = none) →
      ((∃ filesPath fs', split io osTempDir fs src n = SplitResult.ok filesPath fs' ∧
          filesPath.length = n ∧
          ∃ chunks : List (List UInt8),
            filesPath.map fs' = chunks.map some ∧ chunks.flatten = content) ↔
        ((n : Int) - 1) * fileChunk content.length n ≤ (content.length : Int))) ∧
    ((content.length : Int) < ((n : Int) - 1) * fileChunk content.length n →
      split io osTempDir fs src n = SplitResult.panicMakeslice ∧
      ∃ i, i < n ∧ partSize content.length (fileChunk content.length n) i < 0) ∧
    fileChunk content.length n = ⌈(content.length : ℚ) / (n : ℚ)⌉ ∧
    (∀ rnd : ℚ → ℚ, RoundsToNearest rnd → n < 2 ^ 53 →
      fileChunkFloat rnd content.length n = fileChunk content.length n) ∧
    ((4 : Int) ≤ 5 ∧ (5 : Int) < ((4 : Int) - 1) * fileChunk 5 4) := by
  have hiff := last_part_le_iff content.length n hn
  refine ⟨fun hcap hwrite => ⟨?_, ?_⟩, ?_, fileChunk_eq_ceil _ n hn,
    fun rnd hr hn2 => fileChunkFloat_eq rnd hr content.length n hS hn hn2, by decide⟩
  · rintro ⟨filesPath, fs', hok, _, _⟩
    by_contra hcon
    have hlt : content.length < (n - 1) * ((content.length + n - 1) / n) := by
      rw [hiff] at hcon
      omega
    rw [split_panic_of_lt io osTempDir src fs content n hsrc hS hn hcreate hlt] at hok
    cases hok
  · intro hle
    have hcapN : (content.length + n - 1) / n ≤ maxRW := by
      unfold fileChunk at hcap
      exact_mod_cast hcap
    obtain ⟨fs', h1, _, h3⟩ :=
      split_ok_of_le io osTempDir src fs content n hsrc hS hn hcreate hwrite hcapN
        (hiff.mp hle)
    refine ⟨_, fs', h1, by simp, (List.range n).map (fun k =>
      (content.drop (k * ((content.length + n - 1) / n))).take
        ((content.length + n - 1) / n)), ?_, ?_⟩
    · rw [List.map_map, List.map_map]
      apply List.map_congr_left
      intro k hk
      exact h3 k (List.mem_range.mp hk)
    · rw [flatten_chunks]
      apply List.take_of_length_le
      exact ceil_mul_ge content.length n hn
  · intro hlt
    have hlt2 : content.length < (n - 1) * ((content.length + n - 1) / n) := by
      by_contra hcon
      have := hiff.mpr (by omega)
      omega
    exact ⟨split_panic_of_lt io osTempDir src fs content n hsrc hS hn hcreate hlt2,
      exists_negative_partSize content.length n hS hn hlt2⟩

/-- Witness for C10: five bytes in four chunks, where `5 ≥ 4` and `3 * 2 > 5`,
make `split` panic; six bytes in three chunks are split into chunks that make up
the file. -/
theorem split_completes_iff_witness :
    (split noFaults "/tmp" (singleFile "/tmp/a.mgbackup" [1, 2, 3, 4, 5]) "/tmp/a.mgbackup" 4
        = SplitResult.panicMakeslice ∧
      ∃ i, i < 4 ∧ partSize 5 (fileChunk 5 4) i < 0) ∧
    ∃ filesPath fs',
      split noFaults "/tmp" (singleFile "/tmp/a.mgbackup" [1, 2, 3, 4, 5, 6])
        "/tmp/a.mgbackup" 3 = SplitResult.ok filesPath fs' ∧
      filesPath.length = 3 ∧
      ∃ chunks : List (List UInt8),
        filesPath.map fs' = chunks.map some ∧ chunks.flatten = [1, 2, 3, 4, 5, 6] :=
  ⟨(split_completes_iff noFaults "/tmp" "/tmp/a.mgbackup"
      (singleFile "/tmp/a.mgbackup" [1, 2, 3, 4, 5]) [1, 2, 3, 4, 5] 4 (by decide) (by decide)
      (by decide) (fun _ _ => rfl)).2.1 (by decide),
    ((split_completes_iff noFaults "/tmp" "/tmp/a.mgbackup"
      (singleFile "/tmp/a.mgbackup" [1, 2, 3, 4, 5, 6]) [1, 2, 3, 4, 5, 6] 3 (by decide)
      (by decide) (by decide) (fun _ _ => rfl)).1 (by decide) (fun _ _ => rfl)).mpr
      (by decide)⟩

/-- Joining what `split` wrote, with `concatFiles` into a new file, gives back
the file whenever `split` completes on parts of at most 1 GiB and no file
operation fails. -/
theorem split_concatFiles_roundtrip (io : Faults) (osTempDir src out : String)
    (fs : FileSystem) (content : List UInt8) (n : Nat)
    (hsrc : fs src = some content) (hS : content.length < 2 ^ 53) (hn : 1 ≤ n)
    (hcreate : ∀ k, k < n →
      io.createFails (chunkName (osTempDir ++ "/") (filepathBase src) k) = false)
    (hwrite : ∀ k, k < n →
      io.writeFailsAfter (chunkName (osTempDir ++ "/") (filepathBase src) k) = none)
    (hcap : fileChunk content.length n ≤ (maxRW : Int))
    (hle : ((n : Int) - 1) * fileChunk content.length n ≤ (content.length : Int))
    (hopen : io.openOutputFails out = false)
    (hcopy : ∀ k, k < n →
      io.copyFailsAfter (chunkName (osTempDir ++ "/") (filepathBase src) k) = none)
    (hout : fs out = none)
    (hne : ∀ k, out ≠ chunkName (osTempDir ++ "/") (filepathBase src) k) :
    ∃ filesPath fs' fs'', split io osTempDir fs src n = SplitResult.ok filesPath fs' ∧
      filesPath.length = n ∧
      concatFiles io fs' filesPath out = ConcatResult.returned fs'' false ∧
      fs'' out = some content := by
  have hcapN : (content.length + n - 1) / n ≤ maxRW := by
    unfold fileChunk at hcap
    exact_mod_cast hcap
  obtain ⟨fs', h1, h2, h3⟩ := split_ok_of_le io osTempDir src fs content n hsrc hS hn hcreate
    hwrite hcapN ((last_part_le_iff content.length n hn).mp hle)
  have hmap : ((List.range n).map (chunkName (osTempDir ++ "/") (filepathBase src))).map fs' =
      ((List.range n).map (fun k =>
        (content.drop (k * ((content.length + n - 1) / n))).take
          ((content.length + n - 1) / n))).map some := by
    rw [List.map_map, List.map_map]
    apply List.map_congr_left
    intro k hk
    exact h3 k (List.mem_range.mp hk)
  have hnames : ∀ p ∈ (List.range n).map (chunkName (osTempDir ++ "/") (filepathBase src)),
      p ≠ out := by
    intro p hp
    rw [List.mem_map] at hp
    obtain ⟨k, _, rfl⟩ := hp
    exact fun h => hne k h.symm
  have hcopies : ∀ p ∈ (List.range n).map (chunkName (osTempDir ++ "/") (filepathBase src)),
      io.copyFailsAfter p = none := by
    intro p hp
    rw [List.mem_map] at hp
    obtain ⟨k, hk, rfl⟩ := hp
    exact hcopy k (List.mem_range.mp hk)
  obtain ⟨fs'', c1, c2, _⟩ := concatFiles_spec io fs' _ out _ hopen hnames hcopies hmap
  refine ⟨_, fs', fs'', h1, by simp, c1, ?_⟩
  rw [c2, h2 out (fun k _ => hne k), hout, flatten_chunks]
  simp only [Option.getD_none, List.nil_append]
  rw [List.take_of_length_le (ceil_mul_ge content.length n hn)]

/-- C1 (failing inputs): on a 5-byte file split in 4, and on a 1-byte file split
in 3, `split` panics on a negative buffer length, so no chunks are returned for
`concatFiles` to join; and on a 3 GiB file split in 1, where no file operation
fails, joining the chunk that `split` wrote gives the first GiB of the file
followed by zeros, not the file. -/
theorem split_roundtrip_aborts :
    split noFaults "/tmp" (singleFile "/tmp/a.mgbackup" [1, 2, 3, 4, 5]) "/tmp/a.mgbackup" 4
      = SplitResult.panicMakeslice ∧
    split noFaults "/tmp" (singleFile "/tmp/a.mgbackup" [7]) "/tmp/a.mgbackup" 3
      = SplitResult.panicMakeslice ∧
    ∃ fs' fs'',
      split noFaults "/tmp" (singleFile "/tmp/a.mgbackup" threeGiB) "/tmp/a.mgbackup" 1
        = SplitResult.ok ["/tmp/a.mgbackup_000"] fs' ∧
      concatFiles noFaults fs' ["/tmp/a.mgbackup_000"] "/tmp/joined"
        = ConcatResult.returned fs'' false ∧
      fs'' "/tmp/joined" = some threeGiBChunk ∧ threeGiBChunk ≠ threeGiB := by
  refine ⟨rfl, rfl, ?_⟩
  obtain ⟨fs'', c1, c2, _⟩ := concatFiles_spec noFaults
    ((singleFile "/tmp/a.mgbackup" threeGiB).writeFile "/tmp/a.mgbackup_000" threeGiBChunk)
    ["/tmp/a.mgbackup_000"] "/tmp/joined" [threeGiBChunk] rfl
    (by decide) (fun _ _ => rfl)
    (by rw [List.map_cons, List.map_nil, List.map_cons, List.map_nil, writeFile_self])
  refine ⟨_, fs'', split_threeGiB, c1, ?_, threeGiB_read.2.2⟩
  rw [c2, writeFile_other _ _ _ _ (by decide)]
  have hj : singleFile "/tmp/a.mgbackup" threeGiB "/tmp/joined" = none := by
    unfold singleFile
    exact if_neg (by decide)
  rw [hj]
  simp only [Option.getD_none, List.nil_append, List.flatten_cons, List.flatten_nil,
    List.append_nil]

/-- C2 (as stated, refuted): a 5-byte file split in 4 does not yield 4 chunk
entries, of any sizes; a 4-byte file split in 2 yields no chunk entries when the
second chunk file cannot be created, and a second chunk of 1 byte instead of 2
when writing it fails after one byte; and for a file of `2^53 + 1` bytes split
in 1 the `float64` computation of the part size never gives the `2^53 + 1` bytes
of the file. -/
theorem split_chunk_sizes_counterexample :
    (¬ ∃ filesPath fs',
      split noFaults "/tmp" (singleFile "/tmp/a.mgbackup" [1, 2, 3, 4, 5]) "/tmp/a.mgbackup" 4
        = SplitResult.ok filesPath fs' ∧ filesPath.length = 4) ∧
    (¬ ∃ filesPath fs',
      split ⟨fun p => p == "/tmp/a.mgbackup_001", fun _ => none, fun _ => false,
          fun _ => none⟩ "/tmp"
        (singleFile "/tmp/a.mgbackup" [1, 2, 3, 4]) "/tmp/a.mgbackup" 2
        = SplitResult.ok filesPath fs' ∧ filesPath.length = 2) ∧
    (∃ fs', split ⟨fun _ => false,
          fun p => if p = "/tmp/a.mgbackup_001" then some 1 else none, fun _ => false,
          fun _ => none⟩ "/tmp"
        (singleFile "/tmp/a.mgbackup" [1, 2, 3, 4]) "/tmp/a.mgbackup" 2
        = SplitResult.ok ["/tmp/a.mgbackup_000", "/tmp/a.mgbackup_001"] fs' ∧
      fs' "/tmp/a.mgbackup_001" = some [3]) ∧
    (∀ rnd : ℚ → ℚ, RoundsToNearest rnd → partSizeFloat rnd (2 ^ 53 + 1) 1 0 ≠ 2 ^ 53 + 1) := by
  refine ⟨?_, ?_, ⟨_, rfl, by decide⟩, partSizeFloat_above⟩
  · rintro ⟨filesPath, fs', h, _⟩
    have hp : split noFaults "/tmp" (singleFile "/tmp/a.mgbackup" [1, 2, 3, 4, 5])
        "/tmp/a.mgbackup" 4 = SplitResult.panicMakeslice := rfl
    rw [hp] at h
    cases h
  · rintro ⟨filesPath, fs', h, _⟩
    have hp : split ⟨fun p => p == "/tmp/a.mgbackup_001", fun _ => none, fun _ => false,
          fun _ => none⟩
        "/tmp" (singleFile "/tmp/a.mgbackup" [1, 2, 3, 4]) "/tmp/a.mgbackup" 2
        = SplitResult.createError := rfl
    rw [hp] at h
    cases h

/-- C2 (amended): for a file of `S < 2^53` bytes and `n ≥ 1` with
`(n-1) * ceil(S/n) ≤ S`, when each of the `n` chunk files can be created and
written, `split` returns exactly `n` chunk entries; each of the first `n-1` chunks has
`ceil(S/n)` bytes and the last has the remainder `S - (n-1) * ceil(S/n)`; when
`n` divides `S` every chunk has `S/n` bytes. These sizes are the part sizes that
the `float64` computation of `split` yields under any rounding to nearest. -/
theorem split_chunk_sizes (io : Faults) (osTempDir src : String) (fs : FileSystem)
    (content : List UInt8) (n : Nat)
    (hsrc : fs src = some content) (hS : content.length < 2 ^ 53) (hn : 1 ≤ n)
    (hcreate : ∀ k, k < n →
      io.createFails (chunkName (osTempDir ++ "/") (filepathBase src) k) = false)
    (hwrite : ∀ k, k < n →
      io.writeFailsAfter (chunkName (osTempDir ++ "/") (filepathBase src) k) = none)
    (hle : ((n : Int) - 1) * fileChunk content.length n ≤ (content.length : Int)) :
    ∃ filesPath fs', split io osTempDir fs src n = SplitResult.ok filesPath fs' ∧
      filesPath.length = n ∧
      filesPath = (List.range n).map (chunkName (osTempDir ++ "/") (filepathBase src)) ∧
      (∀ i, i + 1 < n → ∃ data,
        fs' (chunkName (osTempDir ++ "/") (filepathBase src) i) = some data ∧
        (data.length : Int) = fileChunk content.length n) ∧
      (∃ data, fs' (chunkName (osTempDir ++ "/") (filepathBase src) (n - 1)) = some data ∧
        (data.length : Int) =
          (content.length : Int) - ((n : Int) - 1) * fileChunk content.length n) ∧
      (n ∣ content.length → ∀ i, i < n → ∃ data,
        fs' (chunkName (osTempDir ++ "/") (filepathBase src) i) = some data ∧
        data.length = content.length / n) ∧
      fileChunk content.length n = ⌈(content.length : ℚ) / (n : ℚ)⌉ ∧
      (∀ rnd : ℚ → ℚ, RoundsToNearest rnd → n < 2 ^ 53 → ∀ i, i < n →
        partSizeFloat rnd content.length n i =
          partSize content.length (fileChunk content.length n) i) := by
  have hleN := (last_part_le_iff content.length n hn).mp hle
  obtain ⟨fs', h1, h3⟩ :=
    split_sizes_of_le io osTempDir src fs content n hsrc hS hn hcreate hwrite hleN
  have hge := ceil_mul_ge content.length n hn
  have hfc : fileChunk content.length n = (((content.length + n - 1) / n : Nat) : Int) := rfl
  have hsplit : n * ((content.length + n - 1) / n) =
      (n - 1) * ((content.length + n - 1) / n) + (content.length + n - 1) / n := by
    obtain ⟨m, rfl⟩ : ∃ m, n = m + 1 := ⟨n - 1, by omega⟩
    simp [Nat.succ_mul]
  refine ⟨_, fs', h1, by simp, rfl, ?_, ?_, ?_, fileChunk_eq_ceil _ n hn, ?_⟩
  · intro i hi
    obtain ⟨buf, hb1, hb2⟩ := h3 i (by omega)
    refine ⟨buf, hb1, ?_⟩
    rw [hb2, hfc]
    have : (i + 1) * ((content.length + n - 1) / n) ≤ (n - 1) * ((content.length + n - 1) / n) :=
      Nat.mul_le_mul_right _ (by omega)
    rw [Nat.add_mul] at this
    omega
  · obtain ⟨buf, hb1, hb2⟩ := h3 (n - 1) (by omega)
    refine ⟨buf, hb1, ?_⟩
    rw [hb2, hfc]
    have h : ((n : Int) - 1) = ((n - 1 : Nat) : Int) := by omega
    rw [h, ← Nat.cast_mul]
    omega
  · intro hdvd i hi
    obtain ⟨buf, hb1, hb2⟩ := h3 i hi
    refine ⟨buf, hb1, ?_⟩
    rw [hb2]
    obtain ⟨q, hq⟩ := hdvd
    have hc : (content.length + n - 1) / n = q := by
      rw [hq]
      have : n * q + n - 1 = n - 1 + n * q := by omega
      rw [this, Nat.add_mul_div_left _ _ (by omega : 0 < n), Nat.div_eq_of_lt (by omega)]
      simp
    have hq2 : content.length / n = q := by
      rw [hq, Nat.mul_div_cancel_left _ (by omega : 0 < n)]
    rw [hc, hq2]
    have : (i + 1) * q ≤ n * q := Nat.mul_le_mul_right _ (by omega)
    rw [Nat.add_mul] at this
    omega
  · intro rnd hr hn2 i hi
    apply partSizeFloat_eq rnd hr content.length n i hS hn hn2
    have : i * ((content.length + n - 1) / n) ≤ (n - 1) * ((content.length + n - 1) / n) :=
      Nat.mul_le_mul_right _ (by omega)
    omega

/-- Witness for C2: 10 MB in four chunks of 2.5 MB each. -/
theorem split_chunk_sizes_witness :
    ∃ filesPath fs',
      split noFaults "/tmp" (singleFile "/tmp/a.mgbackup" (List.replicate 10000000 0))
        "/tmp/a.mgbackup" 4 = SplitResult.ok filesPath fs' ∧
      filesPath.length = 4 ∧
      ∀ i, i < 4 → ∃ data,
        fs' (chunkName ("/tmp" ++ "/") (filepathBase "/tmp/a.mgbackup") i) = some data ∧
        data.length = 2500000 := by
  have hlen : (List.replicate 10000000 (0 : UInt8)).length = 10000000 :=
    List.length_replicate _ _
  obtain ⟨filesPath, fs', h1, h2, _, _, _, h6, _⟩ :=
    split_chunk_sizes noFaults "/tmp" "/tmp/a.mgbackup"
      (singleFile "/tmp/a.mgbackup" (List.replicate 10000000 0))
      (List.replicate 10000000 0) 4 (singleFile_self _ _) (by rw [hlen]; decide)
      (by decide) (fun _ _ => rfl) (fun _ _ => rfl) (by rw [hlen]; decide)
  refine ⟨filesPath, fs', h1, h2, ?_⟩
  intro i hi
  obtain ⟨data, hd1, hd2⟩ := h6 (by rw [hlen]; decide) i hi
  rw [hlen] at hd2
  exact ⟨data, hd1, hd2⟩

/-! ## Theorems: order of the chunk names -/

/-- Below 1000 the formatted index is the three bytes of its decimal digits. -/
theorem sprintf03d_three_digits : ∀ i, i < 1000 → bytesOf (sprintf03d i) =
    [UInt8.ofNat (48 + i / 100), UInt8.ofNat (48 + i / 10 % 10), UInt8.ofNat (48 + i % 10)] := by
  decide!

/-- The bytes of the digits are ordered as the digits. -/
theorem digitByte_lt_digitByte : ∀ b, b < 10 → ∀ a, a < b →
    (UInt8.ofNat (48 + a)).toNat < (UInt8.ofNat (48 + b)).toNat := by
  decide

/-- The bytes of a concatenation. -/
theorem bytesOf_append (a b : String) : bytesOf (a ++ b) = bytesOf a ++ bytesOf b := by
  simp [bytesOf, String.data_append, List.flatMap_append]

/-- A common beginning does not change the comparison. -/
theorem lexLt_append_left (p a b : List UInt8) : lexLt (p ++ a) (p ++ b) = lexLt a b := by
  induction p with
  | nil => rfl
  | cons x p ih => simp [lexLt, ih]

/-- The byte-wise order is asymmetric. -/
theorem lexLt_asymm : ∀ a b : List UInt8, lexLt a b = true → lexLt b a = false := by
  intro a
  induction a with
  | nil =>
    intro b h
    cases b with
    | nil => rfl
    | cons y b => rfl
  | cons x a ih =>
    intro b h
    cases b with
    | nil => simp [lexLt] at h
    | cons y b =>
      simp only [lexLt] at h ⊢
      by_cases h1 : x.toNat < y.toNat
      · have h2 : ¬ y.toNat < x.toNat := by omega
        simp [h1, h2]
      · by_cases h2 : y.toNat < x.toNat
        · simp [h1, h2] at h
        · simp only [h1, h2, if_false] at h ⊢
          exact ih b h

/-- Up to 999 the formatted indices are ordered as the indices. -/
theorem sprintf03d_lt {i j : Nat} (hij : i < j) (hj : j ≤ 999) :
    lexLt (bytesOf (sprintf03d i)) (bytesOf (sprintf03d j)) = true := by
  rw [sprintf03d_three_digits i (by omega), sprintf03d_three_digits j (by omega)]
  rcases Nat.lt_or_ge (i / 100) (j / 100) with h1 | h1
  · simp [lexLt, digitByte_lt_digitByte _ (by omega) _ h1]
  · have e1 : i / 100 = j / 100 := by omega
    rcases Nat.lt_or_ge (i / 10 % 10) (j / 10 % 10) with h2 | h2
    · simp [lexLt, e1, digitByte_lt_digitByte _ (by omega) _ h2]
    · have e2 : i / 10 % 10 = j / 10 % 10 := by omega
      have h3 : i % 10 < j % 10 := by omega
      simp [lexLt, e1, e2, digitByte_lt_digitByte _ (by omega) _ h3]

/-- C7: for chunk indices `i < j ≤ 999` the name `split` builds for chunk `i` is
strictly below the name for chunk `j` in byte-wise lexicographic order; hence the names of
up to 1000 chunks, listed by index, are strictly increasing, and any
rearrangement of them that is sorted is the list by ascending index. -/
theorem chunkName_lt_of_lt (tempDir fileName : String) (i j : Nat)
    (hij : i < j) (hj : j ≤ 999) :
    stringLt (chunkName tempDir fileName i) (chunkName tempDir fileName j) = true ∧
    (∀ n, n ≤ 1000 →
      List.Pairwise (fun a b : String => stringLt a b = true)
        ((List.range n).map (chunkName tempDir fileName)) ∧
      ∀ l : List String, l.Perm ((List.range n).map (chunkName tempDir fileName)) →
        List.Pairwise (fun a b : String => stringLt a b = true) l →
        l = (List.range n).map (chunkName tempDir fileName)) := by
  have key : ∀ a b : Nat, a < b → b ≤ 999 →
      stringLt (chunkName tempDir fileName a) (chunkName tempDir fileName b) = true := by
    intro a b hab hb
    unfold stringLt chunkName
    simp only [bytesOf_append, List.append_assoc, lexLt_append_left]
    exact sprintf03d_lt hab hb
  refine ⟨key i j hij hj, ?_⟩
  intro n hn
  have hsorted : List.Pairwise (fun a b : String => stringLt a b = true)
      ((List.range n).map (chunkName tempDir fileName)) := by
    rw [List.pairwise_map]
    have hr : List.Pairwise (fun a b : Nat => a < b) (List.range n) := List.pairwise_lt_range n
    refine hr.imp_of_mem ?_
    intro a b _ hb hab
    exact key a b hab (by have := List.mem_range.mp hb; omega)
  refine ⟨hsorted, ?_⟩
  intro l hperm hl
  haveI : IsAntisymm String (fun a b : String => stringLt a b = true) :=
    ⟨fun a b h1 h2 => by
      have := lexLt_asymm (bytesOf a) (bytesOf b) h1
      unfold stringLt at h2
      rw [this] at h2
      cases h2⟩
  exact List.eq_of_perm_of_sorted hperm hl hsorted

/-- Witness for C7: chunks 9 and 10 of an archive. -/
theorem chunkName_lt_of_lt_witness :
    stringLt (chunkName "/tmp/" "a.mgbackup" 9) (chunkName "/tmp/" "a.mgbackup" 10) = true :=
  (chunkName_lt_of_lt "/tmp/" "a.mgbackup" 9 10 (by decide) (by decide)).1

/-! ## Theorems: the files joined by a restore -/


/-- Joining with one directory keeps the order of file names. -/
theorem stringLt_filepathJoin (dir a b : String) :
    stringLt (filepathJoin dir a) (filepathJoin dir b) = stringLt a b := by
  unfold filepathJoin stringLt
  by_cases h1 : dir = ""
  · rw [if_pos h1, if_pos h1]
  · rw [if_neg h1, if_neg h1]
    by_cases h2 : dir = "/"
    · rw [if_pos h2, if_pos h2]
      simp only [bytesOf_append, lexLt_append_left]
    · rw [if_neg h2, if_neg h2]
      simp only [bytesOf_append, List.append_assoc, lexLt_append_left]

/-- Concatenation on the left is injective. -/
theorem string_append_cancel_left {p a b : String} (h : p ++ a = p ++ b) : a = b := by
  have h2 := congrArg String.data h
  rw [String.data_append, String.data_append] at h2
  exact String.ext (List.append_cancel_left h2)

/-- The loop of `concatFiles` returns without error when every input exists, is
not the output, and is copied without failure. -/
theorem concatFilesLoop_no_error (io : Faults) (out : String) :
    ∀ (names : List String) (fs : FileSystem),
      (∀ p ∈ names, fs p ≠ none ∧ p ≠ out ∧ io.copyFailsAfter p = none) →
      ∃ fs', concatFilesLoop io out names fs = ConcatResult.returned fs' false := by
  intro names
  induction names with
  | nil => intro fs _; exact ⟨fs, rfl⟩
  | cons p rest ih =>
    intro fs h
    obtain ⟨hp, hpo, hpc⟩ := h p (by simp)
    cases hfp : fs p with
    | none => exact absurd hfp hp
    | some d =>
      simp only [concatFilesLoop, hfp, hpo, false_and, if_false, hpc]
      apply ih
      intro q hq
      obtain ⟨hq1, hq2, hq3⟩ := h q (by simp [hq])
      refine ⟨?_, hq2, hq3⟩
      rw [FileSystem.appendFile, writeFile_other _ _ _ _ hq2]
      exact hq1

/-- C8 (failing input): a destination directory that already holds the file
`notes.txt`. One chunk is downloaded; the list that `downloadRemoteBackup` passes
to `concatFiles`, and then to `removeLocalTemporaryFiles`, also holds
`notes.txt`, which was not downloaded: it is joined into the archive and
removed. -/
theorem downloadRemoteBackup_joins_other_files :
    downloadedFiles [⟨"ann", [⟨"h_s.mgbackup_000", fun _ => none⟩]⟩] "h" "/restore"
      = ["/restore/h_s.mgbackup_000"] ∧
    downloadRemoteBackup noFaults
        ((singleFile "/restore/notes.txt" [2]).writeFile "/restore/h_s.mgbackup_000" [1])
        (some [⟨"h_s.mgbackup_000", false⟩, ⟨"notes.txt", false⟩]) none "h" "/restore"
      = RestoreResult.done
          ⟨["/restore/h_s.mgbackup_000", "/restore/notes.txt"], "/restore/h.mgbackup",
            ["/restore/h.mgbackup", "/restore/h_s.mgbackup_000", "/restore/notes.txt"]⟩ ∧
    (∃ fs', concatFiles noFaults
        ((singleFile "/restore/notes.txt" [2]).writeFile "/restore/h_s.mgbackup_000" [1])
        ["/restore/h_s.mgbackup_000", "/restore/notes.txt"] "/restore/h.mgbackup"
        = ConcatResult.returned fs' false ∧ fs' "/restore/h.mgbackup" = some [1, 2]) :=
  ⟨by decide, by decide, _, rfl, by decide⟩

/-- When the downloads succeeded, no local file operation fails and the
destination directory, listed in ascending order of file names, holds no regular
file besides the downloaded chunk files (and not the archive to be assembled),
the list that `downloadRemoteBackup` passes to `concatFiles`, and afterwards
removes together with the assembled archive, consists of exactly the downloaded
chunk files, in ascending byte-wise order of their names. -/
theorem downloadRemoteBackup_inputs (io : Faults) (fs : FileSystem) (fileInfo : List FileInfo)
    (sessions : List MegaSession) (hash downloadDestinationPath : String)
    (hsorted : List.Pairwise (fun a b : FileInfo => stringLt a.name b.name = true) fileInfo)
    (hlisted : ∀ file ∈ fileInfo, file.isDir = false →
      file.name ∈ (dispatchedDownloads sessions hash).map (fun src => src.name))
    (hdownloaded : ∀ src ∈ dispatchedDownloads sessions hash, ⟨src.name, false⟩ ∈ fileInfo)
    (hfiles : ∀ file ∈ fileInfo, file.isDir = false →
      fs (filepathJoin downloadDestinationPath file.name) ≠ none)
    (hzip : ∀ file ∈ fileInfo, file.name ≠ hash ++ "." ++ appExt)
    (hopen : io.openOutputFails
      (filepathJoin downloadDestinationPath (hash ++ "." ++ appExt)) = false)
    (hcopy : ∀ file ∈ fileInfo,
      io.copyFailsAfter (filepathJoin downloadDestinationPath file.name) = none) :
    ∃ run, downloadRemoteBackup io fs (some fileInfo) none hash downloadDestinationPath
        = RestoreResult.done run ∧
      (∀ p, p ∈ run.concatInputs ↔ p ∈ downloadedFiles sessions hash downloadDestinationPath) ∧
      List.Pairwise (fun a b : String => stringLt a b = true) run.concatInputs ∧
      run.zipFile = filepathJoin downloadDestinationPath (hash ++ "." ++ appExt) ∧
      run.zipFile ∉ run.concatInputs ∧
      run.removed = run.zipFile :: run.concatInputs := by
  have hmem : ∀ p, p ∈ (fileInfo.filter (fun file => !file.isDir)).map
        (fun file => filepathJoin downloadDestinationPath file.name) ↔
      p ∈ downloadedFiles sessions hash downloadDestinationPath := by
    intro p
    unfold downloadedFiles
    simp only [List.mem_map, List.mem_filter, Bool.not_eq_true']
    constructor
    · rintro ⟨file, ⟨hf, hd⟩, rfl⟩
      have := hlisted file hf hd
      rw [List.mem_map] at this
      obtain ⟨src, hsrc, hname⟩ := this
      exact ⟨src, hsrc, by rw [hname]⟩
    · rintro ⟨src, hsrc, rfl⟩
      exact ⟨⟨src.name, false⟩, ⟨hdownloaded src hsrc, rfl⟩, rfl⟩
  have hjoin_inj : ∀ a b : String, filepathJoin downloadDestinationPath a =
      filepathJoin downloadDestinationPath b → a = b := by
    intro a b heq
    unfold filepathJoin at heq
    by_cases h1 : downloadDestinationPath = ""
    · rw [if_pos h1, if_pos h1] at heq
      exact heq
    · rw [if_neg h1, if_neg h1] at heq
      by_cases h2 : downloadDestinationPath = "/"
      · rw [if_pos h2, if_pos h2] at heq
        exact string_append_cancel_left heq
      · rw [if_neg h2, if_neg h2] at heq
        exact string_append_cancel_left heq
  have hnotin : filepathJoin downloadDestinationPath (hash ++ "." ++ appExt) ∉
      (fileInfo.filter (fun file => !file.isDir)).map
        (fun file => filepathJoin downloadDestinationPath file.name) := by
    intro hin
    simp only [List.mem_map, List.mem_filter, Bool.not_eq_true'] at hin
    obtain ⟨file, ⟨hf, _⟩, heq⟩ := hin
    exact hzip file hf (hjoin_inj _ _ heq)
  have hnoerr : ∃ fs', concatFiles io fs
      ((fileInfo.filter (fun file => !file.isDir)).map
        (fun file => filepathJoin downloadDestinationPath file.name))
      (filepathJoin downloadDestinationPath (hash ++ "." ++ appExt))
      = ConcatResult.returned fs' false := by
    unfold concatFiles
    simp only [hopen, Bool.false_eq_true, if_false]
    apply concatFilesLoop_no_error
    intro p hp
    have hpne : p ≠ filepathJoin downloadDestinationPath (hash ++ "." ++ appExt) :=
      fun h => hnotin (h ▸ hp)
    simp only [List.mem_map, List.mem_filter, Bool.not_eq_true'] at hp
    obtain ⟨file, ⟨hf, hd⟩, rfl⟩ := hp
    refine ⟨?_, hpne, hcopy file hf⟩
    rw [FileSystem.appendFile, writeFile_other _ _ _ _ hpne]
    exact hfiles file hf hd
  obtain ⟨fs', hfs'⟩ := hnoerr
  refine ⟨⟨(fileInfo.filter (fun file : FileInfo => !file.isDir)).map
        (fun file : FileInfo => filepathJoin downloadDestinationPath file.name),
      filepathJoin downloadDestinationPath (hash ++ "." ++ appExt),
      removeLocalTemporaryFiles (filepathJoin downloadDestinationPath (hash ++ "." ++ appExt))
        ((fileInfo.filter (fun file : FileInfo => !file.isDir)).map
          (fun file : FileInfo => filepathJoin downloadDestinationPath file.name))⟩,
    by simp only [downloadRemoteBackup, getFilesInDirectoryOrderByName, hfs'],
    hmem, ?_, rfl, hnotin, rfl⟩
  rw [List.pairwise_map]
  refine (hsorted.sublist (List.filter_sublist _)).imp ?_
  intro a b hab
  rw [stringLt_filepathJoin]
  exact hab

/-- Receiving `n` values takes the first `n` arrivals, and blocks when there are
fewer. -/
theorem receiveN_eq (n : Nat) : ∀ arrival : List GoError,
    receiveN n arrival = if n ≤ arrival.length then some (arrival.take n) else none := by
  induction n with
  | zero => intro arrival; simp [receiveN]
  | succ n ih =>
    intro arrival
    cases arrival with
    | nil => simp [receiveN]
    | cons r rs =>
      simp only [receiveN, ih, List.length_cons, Nat.add_le_add_iff_right, List.take_succ_cons]
      by_cases h : n ≤ rs.length <;> simp [h]

/-- The function `downloadRemoteBackupFiles` awaits `len(sessions)` responses:
it returns, with the first error among the first `len(sessions)` arrivals, when
at least that many downloads complete, and never returns otherwise. -/
theorem downloadRemoteBackupFiles_eq (sessions : List MegaSession) (arrival : List GoError) :
    downloadRemoteBackupFiles sessions arrival =
      if sessions.length ≤ arrival.length then
        some (firstError (arrival.take sessions.length))
      else none := by
  unfold downloadRemoteBackupFiles
  rw [receiveN_eq]
  by_cases h : sessions.length ≤ arrival.length <;> simp [h]

/-- C5 (failing inputs): with one session holding two matching objects, two
downloads are dispatched but one completion is awaited, and the function returns
`nil` although the second download failed for good; with two sessions and one
matching object, one download is dispatched, two completions are awaited, and
the function never returns. -/
theorem downloadRemoteBackupFiles_awaits_session_count :
    (dispatchedDownloads
        [⟨"ann", [⟨"h_s.mgbackup_000", fun _ => none⟩,
          ⟨"h_s.mgbackup_001", fun _ => some (MegaError.other 5)⟩]⟩] "h").map downloadRemoteFile
      = [none, some (MegaError.other 5)] ∧
    downloadRemoteBackupFiles
        [⟨"ann", [⟨"h_s.mgbackup_000", fun _ => none⟩,
          ⟨"h_s.mgbackup_001", fun _ => some (MegaError.other 5)⟩]⟩]
        [none, some (MegaError.other 5)] = some none ∧
    (dispatchedDownloads
        [⟨"ann", [⟨"h_s.mgbackup_000", fun _ => none⟩]⟩, ⟨"bob", []⟩] "h").map downloadRemoteFile
      = [none] ∧
    downloadRemoteBackupFiles
        [⟨"ann", [⟨"h_s.mgbackup_000", fun _ => none⟩]⟩, ⟨"bob", []⟩] [none] = none := by
  decide

end MgBackup
